import Mathlib

/-!
Verification development for the BVH4 hybrid packet/single-ray traversal core
(`bvh4_intersector4_hybrid.cpp`), the ray-stream repacking (`bvh_intersector_stream.cpp`)
and the GPU stream intersector skeleton.

Floats are modelled by exact rationals; the driver's `pos_inf` / `neg_inf`
constants are modelled by an extended rational type `XRat` with top and bottom
elements.  Under this model a fused multiply-add coincides exactly with the
separate multiply-subtract, so "equal modulo FMA-induced ULP differences"
becomes exact equality.
-/

/-- Extended rationals: `⊥` models `neg_inf`, `⊤` models `pos_inf`. -/
abbrev XRat := WithBot (WithTop ℚ)

/-- Coerce a rational into the extended rationals. -/
def XRat.q (x : ℚ) : XRat := ((x : WithTop ℚ) : XRat)

/-- A 3-vector of rationals (one lane's origin, direction, or reciprocal direction). -/
structure Vec3 where
  x : ℚ
  y : ℚ
  z : ℚ
deriving DecidableEq, Repr

/-- The large finite constant that `rcp_safe` substitutes for the reciprocal of zero. -/
def rcpLarge : ℚ := 10 ^ 18

/-- `rcp_safe` on one component: reciprocal, with `0` mapped to a large finite value. -/
def rcpSafe (d : ℚ) : ℚ := if d = 0 then rcpLarge else d⁻¹

/-- `rcp_safe` on a direction vector. -/
def rcpSafeVec (v : Vec3) : Vec3 := ⟨rcpSafe v.x, rcpSafe v.y, rcpSafe v.z⟩

/-- An axis-aligned bounding box, six scalars as stored per child in a static node. -/
structure AABB where
  lower : Vec3
  upper : Vec3
deriving DecidableEq, Repr

/-- Entry distance of the slab test (`lnearP` in the source, lines 160-166):
the maximum over the three axes of the smaller clip distance. -/
def slabNearQ (org rdir : Vec3) (b : AABB) : ℚ :=
  let dminx := (b.lower.x - org.x) * rdir.x
  let dminy := (b.lower.y - org.y) * rdir.y
  let dminz := (b.lower.z - org.z) * rdir.z
  let dmaxx := (b.upper.x - org.x) * rdir.x
  let dmaxy := (b.upper.y - org.y) * rdir.y
  let dmaxz := (b.upper.z - org.z) * rdir.z
  max (max (min dminx dmaxx) (min dminy dmaxy)) (min dminz dmaxz)

/-- Exit distance of the slab test (`lfarP` in the source, line 167). -/
def slabFarQ (org rdir : Vec3) (b : AABB) : ℚ :=
  let dminx := (b.lower.x - org.x) * rdir.x
  let dminy := (b.lower.y - org.y) * rdir.y
  let dminz := (b.lower.z - org.z) * rdir.z
  let dmaxx := (b.upper.x - org.x) * rdir.x
  let dmaxy := (b.upper.y - org.y) * rdir.y
  let dmaxz := (b.upper.z - org.z) * rdir.z
  min (min (max dminx dmaxx) (max dminy dmaxy)) (max dminz dmaxz)

/-- Hit bit of the static-node slab test (source line 168):
`max(lnearP, ray_tnear) <= min(lfarP, ray_tfar)`. -/
def slabHit (tn tf : XRat) (near far : ℚ) : Bool :=
  decide (max (XRat.q near) tn ≤ min (XRat.q far) tf)

example : slabHit (XRat.q 0) (XRat.q 100) 1 10 = true := by decide
example : slabHit ⊤ ⊥ 1 10 = false := by decide
example : XRat.q 3 < (⊤ : XRat) := by decide
example : (⊥ : XRat) < XRat.q (-5) := by decide

/-- A primitive, as seen through the primitive-intersector interface: an opaque
hit payload (`id`, standing for the geomID/primID/u/v/Ng bundle written on commit)
and, per lane, the exact distance at which that lane's ray meets the primitive
(`none` when the lane's ray misses it).  Modelled from the spec: the primitive
intersection kernels (Möller–Trumbore and Plücker) are external collaborators;
only their contract is visible to the core. -/
structure Prim where
  id : Nat
  t : Fin 4 → Option ℚ
deriving DecidableEq

/-- The per-lane hit distance as an extended rational; a missed lane reports `⊤`
so that it never satisfies the strict commit test. -/
def primT (p : Prim) (i : Fin 4) : XRat :=
  match p.t i with
  | some t => XRat.q t
  | none => ⊤

/-- A BVH4 subtree with the node variants the hybrid walker's defined
specializations handle (types mask `0x1`): static internal nodes (children packed
dense-left, at most four, each with its AABB) and leaves (a primitive list).
`BVH4::emptyNode` is a leaf with zero items, modelled as `leaf []`. -/
inductive BVH4Tree where
  | leaf (prims : List Prim)
  | node (children : List (AABB × BVH4Tree))

/-- The empty node: a leaf with no primitives. -/
def BVH4Tree.emptyNode : BVH4Tree := .leaf []

mutual
/-- All primitives stored in a subtree, in left-to-right order. -/
def primsOf : BVH4Tree → List Prim
  | .leaf ps => ps
  | .node ch => primsOfL ch

/-- All primitives stored below a child list. -/
def primsOfL : List (AABB × BVH4Tree) → List Prim
  | [] => []
  | c :: cs => primsOf c.2 ++ primsOfL cs
end

mutual
/-- Number of nodes of a subtree (for termination measures). -/
def tsize : BVH4Tree → Nat
  | .leaf _ => 1
  | .node ch => 1 + lsize ch

/-- Total node count below a child list. -/
def lsize : List (AABB × BVH4Tree) → Nat
  | [] => 0
  | c :: cs => tsize c.2 + lsize cs
end

mutual
/-- Depth of a subtree (a single leaf has depth 0). -/
def tdepth : BVH4Tree → Nat
  | .leaf _ => 0
  | .node ch => 1 + ldepth ch

/-- Maximum depth below a child list. -/
def ldepth : List (AABB × BVH4Tree) → Nat
  | [] => 0
  | c :: cs => max (tdepth c.2) (ldepth cs)
end

mutual
/-- Number of internal nodes of a subtree. -/
def tinternal : BVH4Tree → Nat
  | .leaf _ => 0
  | .node ch => 1 + linternal ch

/-- Internal-node count below a child list. -/
def linternal : List (AABB × BVH4Tree) → Nat
  | [] => 0
  | c :: cs => tinternal c.2 + linternal cs
end

/-- A 4-lane ray packet in SoA form.  `tnear`/`tfar` are the packet's ray fields
(the working registers of the traversal are copies held in the walker state);
`attr` is the per-lane committed hit payload (primID/geomID/u/v/Ng bundle),
`geomID` the field the any-hit driver stores its hit indicator into. -/
structure Ray4 where
  org : Fin 4 → Vec3
  dir : Fin 4 → Vec3
  time : Fin 4 → ℚ
  tnear : Fin 4 → XRat
  tfar : Fin 4 → XRat
  attr : Fin 4 → Option Nat
  geomID : Fin 4 → Int

/-- Motion-blur node child bounds: base coordinates plus linear velocities. -/
structure AABBMB where
  lower : Vec3
  dlower : Vec3
  upper : Vec3
  dupper : Vec3

/-- The effective bounds of a motion-blur child at time `t`:
`coord + t * dcoord` componentwise (source lines 36-41). -/
def mbBoxAt (b : AABBMB) (t : ℚ) : AABB :=
  { lower := ⟨b.lower.x + t * b.dlower.x, b.lower.y + t * b.dlower.y, b.lower.z + t * b.dlower.z⟩
    upper := ⟨b.upper.x + t * b.dupper.x, b.upper.y + t * b.dupper.y, b.upper.z + t * b.dupper.z⟩ }

/-- The motion-blur box test `intersectBox` (source lines 34-63) for one lane:
reconstructs the child bounds at the lane's time, clips against the ray's `tnear`
field and the passed `ray_tfar` register, returns the hit bit and the reported
distance `dist = near` (which includes the `tnear` clamp). -/
def intersectBoxMB (ray : Ray4) (rayTfar : Fin 4 → XRat) (rdir : Fin 4 → Vec3)
    (b : AABBMB) (i : Fin 4) : Bool × XRat :=
  let box := mbBoxAt b (ray.time i)
  let nearQ := slabNearQ (ray.org i) (rdir i) box
  let farQ := slabFarQ (ray.org i) (rdir i) box
  let near : XRat := max (XRat.q nearQ) (ray.tnear i)
  let far : XRat := min (XRat.q farQ) (rayTfar i)
  (decide (near ≤ far), near)

/-- Any-lane disjunction over the four lanes (`any(...)` / `movemask != 0`). -/
def anyLane (f : Fin 4 → Bool) : Bool :=
  f 0 || f 1 || f 2 || f 3

/-- All-lane conjunction over the four lanes (`all(...)`). -/
def allLanes (f : Fin 4 → Bool) : Bool :=
  f 0 && f 1 && f 2 && f 3

/-- Popcount of a four-lane mask (`__popcnt(movemask(...))`). -/
def popcountLanes (f : Fin 4 → Bool) : Nat :=
  (if f 0 then 1 else 0) + (if f 1 then 1 else 0) + (if f 2 then 1 else 0) + (if f 3 then 1 else 0)

/-- One primitive processed by the closest-hit primitive intersector: for every
lane in the valid mask whose distance to the primitive lies in the half-open
window `[tnear, tfar)`, commit the hit (lower `tfar` to the distance and record
the payload).  Modelled from the spec: the primitive-intersector contract of
§4.7 — it "mutates ray_packet's tfar and hit attributes for lanes it updates;
it must only update lanes whose `valid_mask` bit is set". -/
def commitPrim (valid : Fin 4 → Bool) (r : Ray4) (p : Prim) : Ray4 :=
  let doit : Fin 4 → Bool := fun i =>
    valid i && decide (r.tnear i ≤ primT p i) && decide (primT p i < r.tfar i)
  { r with
    tfar := fun i => if doit i then primT p i else r.tfar i
    attr := fun i => if doit i then some p.id else r.attr i }

/-- The closest-hit primitive intersector over a leaf's primitive list. -/
def primIntersect (valid : Fin 4 → Bool) (r : Ray4) (prims : List Prim) : Ray4 :=
  prims.foldl (commitPrim valid) r

/-- The any-hit primitive intersector: per lane, reports whether any primitive
of the leaf lies within the closed window `[tnear, tfar]` of the lane's ray
fields; only lanes in the valid mask may report.  Modelled from the spec (§4.7):
`occluded(valid_mask, …) → new_hit_mask`. -/
def primOccluded (valid : Fin 4 → Bool) (r : Ray4) (prims : List Prim) : Fin 4 → Bool :=
  fun i => valid i && prims.any (fun p =>
    match p.t i with
    | some t => decide (r.tnear i ≤ XRat.q t) && decide (XRat.q t ≤ r.tfar i)
    | none => false)

/-- Declarative per-lane result of a closest-hit traversal: fold the commit rule
over a primitive list, starting from the lane's current `tfar`. -/
def windowMin (tn : XRat) (tf : XRat) (ps : List Prim) (i : Fin 4) : XRat :=
  ps.foldl (fun acc p => if tn ≤ primT p i ∧ primT p i < acc then primT p i else acc) tf

/-- The mask selecting one lane. -/
def laneMask (i : Fin 4) : Fin 4 → Bool := fun j => decide (j = i)

/-- For the single-ray walker: per-child slab tests for lane `i` against the
lane's current `tfar` field, keeping the hit children with their entry
distances. -/
def collectHits (i : Fin 4) (tn : XRat) (rdir : Vec3) (r : Ray4) :
    List (AABB × BVH4Tree) → List (ℚ × BVH4Tree)
  | [] => []
  | (box, c) :: cs =>
      let ln := slabNearQ (r.org i) rdir box
      let lf := slabFarQ (r.org i) rdir box
      if slabHit tn (r.tfar i) ln lf then (ln, c) :: collectHits i tn rdir r cs
      else collectHits i tn rdir r cs

/-- Insert into a distance-sorted list (stable: equal distances keep order). -/
def insertByDist (p : ℚ × BVH4Tree) : List (ℚ × BVH4Tree) → List (ℚ × BVH4Tree)
  | [] => [p]
  | q :: qs => if p.1 < q.1 then p :: q :: qs else q :: insertByDist p qs

/-- Sort hit children by ascending entry distance (nearest first): the walker
descends into the nearest and leaves the rest in descending order on its stack. -/
def sortByDist : List (ℚ × BVH4Tree) → List (ℚ × BVH4Tree)
  | [] => []
  | p :: ps => insertByDist p (sortByDist ps)

/-- Total subtree size carried by a hit list (termination measure). -/
def hsize : List (ℚ × BVH4Tree) → Nat
  | [] => 0
  | p :: ps => tsize p.2 + hsize ps

theorem tsize_pos : ∀ t : BVH4Tree, 0 < tsize t
  | .leaf _ => by simp [tsize]
  | .node _ => by simp [tsize]

theorem hsize_insertByDist (p : ℚ × BVH4Tree) (l : List (ℚ × BVH4Tree)) :
    hsize (insertByDist p l) = tsize p.2 + hsize l := by
  induction l with
  | nil => simp [insertByDist, hsize]
  | cons q qs ih =>
      by_cases h : p.1 < q.1
      · simp [insertByDist, h, hsize]
      · simp [insertByDist, h, hsize, ih]
        omega

theorem hsize_sortByDist (l : List (ℚ × BVH4Tree)) :
    hsize (sortByDist l) = hsize l := by
  induction l with
  | nil => rfl
  | cons p ps ih => simp [sortByDist, hsize_insertByDist, ih, hsize]

theorem hsize_collectHits_le (i : Fin 4) (tn : XRat) (rdir : Vec3) (r : Ray4)
    (ch : List (AABB × BVH4Tree)) : hsize (collectHits i tn rdir r ch) ≤ lsize ch := by
  induction ch with
  | nil => simp [collectHits, hsize, lsize]
  | cons c cs ih =>
      obtain ⟨box, t⟩ := c
      simp only [collectHits, lsize]
      by_cases h : slabHit tn (r.tfar i) (slabNearQ (r.org i) rdir box) (slabFarQ (r.org i) rdir box) = true
      · rw [if_pos h]
        simp only [hsize]
        omega
      · rw [if_neg h]
        omega

mutual
/-- Modelled from the spec: `BVH4Intersector4Single::intersect1`, the
single-ray walker of §4.3 — "at each step, intersect the ray against up to
four child boxes.  Rank hit children by near-distance.  Descend into the
nearest; push the rest in descending near-distance order so the next pop is
the second-nearest.  On a leaf, call the external primitive intersector for
lane i only."  The LIFO discipline makes this a depth-first walk processing
each node's hit children in ascending near-distance order, which the
recursion below performs directly. -/
def walk1 (i : Fin 4) (tn : XRat) (rdir : Vec3) (t : BVH4Tree) (r : Ray4) : Ray4 :=
  match t with
  | .leaf ps => primIntersect (laneMask i) r ps
  | .node ch => walkList i tn rdir (sortByDist (collectHits i tn rdir r ch)) r
termination_by 2 * tsize t
decreasing_by
  rw [hsize_sortByDist]
  have h := hsize_collectHits_le i tn rdir r ch
  simp only [tsize]
  omega

/-- Sequential descent into an ordered list of hit children. -/
def walkList : (i : Fin 4) → (tn : XRat) → (rdir : Vec3) → (l : List (ℚ × BVH4Tree)) → (r : Ray4) → Ray4
  | _, _, _, [], r => r
  | i, tn, rdir, p :: ps, r => walkList i tn rdir ps (walk1 i tn rdir p.2 r)
termination_by _ _ _ l _ => 2 * hsize l + 1
decreasing_by
  all_goals
    have h := tsize_pos p.2
    simp only [hsize]
    omega
end

mutual
/-- Modelled from the spec: `BVH4Intersector4Single::occluded1`, the any-hit
single-ray walker of §4.3 — same walk, but it only reports whether some
primitive within the lane's `[tnear, tfar]` window is reachable (the push
order is immaterial for the result). -/
def walkOcc1 (i : Fin 4) (tn : XRat) (rdir : Vec3) (t : BVH4Tree) (r : Ray4) : Bool :=
  match t with
  | .leaf ps => primOccluded (laneMask i) r ps i
  | .node ch => walkOccList i tn rdir (collectHits i tn rdir r ch) r
termination_by 2 * tsize t
decreasing_by
  have h := hsize_collectHits_le i tn rdir r ch
  simp only [tsize]
  omega

/-- Any-hit over a list of hit children. -/
def walkOccList : (i : Fin 4) → (tn : XRat) → (rdir : Vec3) → (l : List (ℚ × BVH4Tree)) → (r : Ray4) → Bool
  | _, _, _, [], _ => false
  | i, tn, rdir, p :: ps, r => walkOcc1 i tn rdir p.2 r || walkOccList i tn rdir ps r
termination_by _ _ _ l _ => 2 * hsize l + 1
decreasing_by
  all_goals
    have h := tsize_pos p.2
    simp only [hsize]
    omega
end

/-- A node reference as held in the traversal stack: the invalid sentinel
(`BVH4::invalidNode`) or a subtree. -/
inductive NRef where
  | invalid
  | tree (t : BVH4Tree)

/-- A four-lane distance vector (`ssef` register). -/
abbrev Dist4 := Fin 4 → XRat

/-- A stack entry: node reference plus the four-lane near distance at push time. -/
abbrev StackE := NRef × Dist4

/-- Accumulator of the child-processing loop: the in-register next node
(`curNode`, `curDist`) and the stack (head = top). -/
structure DownAcc where
  cur : NRef
  curDist : Dist4
  stack : List StackE

/-- One child of the down-traversal loop (source lines 144-196): slab-test the
child against all four lanes; if any lane hits, compute
`childDist = select(lhit, lnearP, inf)` and either swap it into the register
(pushing the incumbent) when some lane finds it nearer, or push it. -/
def childStep (org : Fin 4 → Vec3) (rdir : Fin 4 → Vec3) (tnearReg tfarReg : Dist4)
    (acc : DownAcc) (c : AABB × BVH4Tree) : DownAcc :=
  let lnear := fun i => slabNearQ (org i) (rdir i) c.1
  let lfar := fun i => slabFarQ (org i) (rdir i) c.1
  let lhit := fun i => slabHit (tnearReg i) (tfarReg i) (lnear i) (lfar i)
  if anyLane lhit then
    let childD : Dist4 := fun i => if lhit i then XRat.q (lnear i) else ⊤
    if anyLane (fun i => decide (childD i < acc.curDist i)) then
      ⟨NRef.tree c.2, childD, (acc.cur, acc.curDist) :: acc.stack⟩
    else
      ⟨acc.cur, acc.curDist, (NRef.tree c.2, childD) :: acc.stack⟩
  else acc

/-- Process all (dense-left) children of an internal node. -/
def processChildren (org : Fin 4 → Vec3) (rdir : Fin 4 → Vec3) (tnearReg tfarReg : Dist4)
    (ch : List (AABB × BVH4Tree)) (acc : DownAcc) : DownAcc :=
  ch.foldl (childStep org rdir tnearReg tfarReg) acc

/-- The speculative pop at the head of the children loop (source lines 137-141).
An empty list cannot arise from a well-seeded run (the sentinel is below);
totality is provided by a dummy sentinel. -/
def specPop : List StackE → StackE × List StackE
  | [] => ((NRef.invalid, fun _ => ⊤), [])
  | e :: rest => (e, rest)

/-- The walker's control point: about to pop, or descending with a node in
register. -/
inductive PMode where
  | pop
  | down (cur : NRef) (curDist : Dist4)

/-- State of one closest-hit hybrid traversal (`BVH4Intersector4Hybrid::intersect`):
the ray packet, the precomputed reciprocal directions, the `ray_tnear`/`ray_tfar`
registers, the stack (head = top, `invalidNode` sentinel at the bottom), the
control point, and instrumentation (peak stack occupancy, internal-node steps). -/
structure PConfig where
  ray : Ray4
  rdir : Fin 4 → Vec3
  tnearReg : Dist4
  tfarReg : Dist4
  stack : List StackE
  mode : PMode
  peak : Nat
  downSteps : Nat

/-- Run the single-ray walker for every active lane, in ascending lane order
(source line 119: iterate over the set bits of `movemask(active)`). -/
def foldSingle (active : Fin 4 → Bool) (tnearReg : Dist4) (rdir : Fin 4 → Vec3)
    (n : BVH4Tree) (r : Ray4) : Ray4 :=
  (List.finRange 4).foldl (fun acc i => if active i then walk1 i (tnearReg i) (rdir i) n acc else acc) r

/-- Result of one machine step: continue, or return from the call. -/
inductive StepRes where
  | cont (c : PConfig)
  | fin (c : PConfig)

/-- One step of the closest-hit hybrid walker (source lines 97-284).
At a pop: pop the stack; the sentinel ends the walk; cull the entry when no
lane has `curDist < ray_tfar`; hand the popped subtree to the single-ray
walker per active lane when the active popcount is at most the switch
threshold, folding `ray_tfar = min(ray_tfar, ray.tfar)` afterwards; otherwise
enter down-traversal.  At a down step on an internal node: speculative-pop the
next-in-line, slab-test each child, swap-or-push (childStep), then push the
register back and return to the pop point when the mid-traversal switch fires.
At a leaf: intersect it with `valid_leaf = ray_tfar > curDist` and fold
`ray_tfar = select(valid_leaf, ray.tfar, ray_tfar)`. -/
def pstep (thr : Nat) (c : PConfig) : StepRes :=
  match c.mode with
  | .pop =>
    match c.stack with
    | [] => .fin c
    | (n, d) :: rest =>
      match n with
      | .invalid => .fin { c with stack := rest }
      | .tree u =>
        let active := fun i => decide (d i < c.tfarReg i)
        if anyLane active = false then .cont { c with stack := rest }
        else if popcountLanes active ≤ thr then
          let ray' := foldSingle active c.tnearReg c.rdir u c.ray
          .cont { c with ray := ray',
                         tfarReg := fun i => min (c.tfarReg i) (ray'.tfar i),
                         stack := rest }
        else .cont { c with stack := rest, mode := .down n d }
  | .down cur curD =>
    match cur with
    | .invalid => .fin c
    | .tree (.leaf prims) =>
      let vleaf := fun i => decide (curD i < c.tfarReg i)
      let ray' := primIntersect vleaf c.ray prims
      .cont { c with ray := ray',
                     tfarReg := fun i => if vleaf i then ray'.tfar i else c.tfarReg i,
                     mode := .pop }
    | .tree (.node ch) =>
      let pr := specPop c.stack
      let acc := processChildren c.ray.org c.rdir c.tnearReg c.tfarReg ch
        ⟨pr.1.1, pr.1.2, pr.2⟩
      if popcountLanes (fun i => decide (acc.curDist i < c.tfarReg i)) ≤ thr then
        .cont { c with stack := (acc.cur, acc.curDist) :: acc.stack, mode := .pop,
                       peak := max c.peak (acc.stack.length + 1),
                       downSteps := c.downSteps + 1 }
      else
        .cont { c with stack := acc.stack, mode := .down acc.cur acc.curDist,
                       peak := max c.peak acc.stack.length,
                       downSteps := c.downSteps + 1 }

/-- Fuel-indexed run of the closest-hit walker; `none` when the fuel is
exhausted before the walk returns. -/
def prun (thr : Nat) : Nat → PConfig → Option PConfig
  | 0, _ => none
  | fuel + 1, c =>
    match pstep thr c with
    | .fin c' => some c'
    | .cont c' => prun thr fuel c'

/-- The closest-hit driver entry (source lines 66-96): build `rdir`, force
`tnear = +inf` and `tfar = -inf` on inactive lanes, seed the stack with the
sentinel and the root (near distance `ray_tnear`). -/
def mkIntersectConfig (valid : Fin 4 → Bool) (root : BVH4Tree) (r : Ray4) : PConfig :=
  let rdir := fun i => rcpSafeVec (r.dir i)
  let tnearReg : Dist4 := fun i => if valid i then r.tnear i else ⊤
  let tfarReg : Dist4 := fun i => if valid i then r.tfar i else ⊥
  { ray := r, rdir := rdir, tnearReg := tnearReg, tfarReg := tfarReg,
    stack := [(NRef.tree root, tnearReg), (NRef.invalid, fun _ => ⊤)],
    mode := .pop, peak := 2, downSteps := 0 }

/-- `BVH4Intersector4Hybrid::intersect` with switch threshold `thr`, as a
fuel-indexed function. -/
def hybridIntersect (thr fuel : Nat) (valid : Fin 4 → Bool) (root : BVH4Tree) (r : Ray4) :
    Option PConfig :=
  prun thr fuel (mkIntersectConfig valid root r)

/-- State of one any-hit hybrid traversal (`BVH4Intersector4Hybrid::occluded`):
as `PConfig`, plus the input valid mask and the `terminated` mask. -/
structure OConfig where
  ray : Ray4
  rdir : Fin 4 → Vec3
  tnearReg : Dist4
  tfarReg : Dist4
  valid : Fin 4 → Bool
  terminated : Fin 4 → Bool
  stack : List StackE
  mode : PMode

/-- The final store of the any-hit walker (source line 513):
`store4i(valid & terminated, &ray.geomID, 0)` — write 0 into the hit-indicator
field of exactly the lanes in `valid & terminated`. -/
def ostore (c : OConfig) : OConfig :=
  { c with ray := { c.ray with
      geomID := fun i => if c.valid i && c.terminated i then 0 else c.ray.geomID i } }

/-- Result of one any-hit machine step. -/
inductive OStepRes where
  | cont (c : OConfig)
  | fin (c : OConfig)

/-- One step of the any-hit hybrid walker (source lines 290-515).  The
structure mirrors `pstep`; at a leaf the termination mask is OR-folded with
the mask the any-hit primitive intersector returns for `!terminated`, the
walk ends as soon as every lane is terminated, and terminated lanes get
`ray_tfar = -inf`; every return path performs the final masked store. -/
def ostep (thr : Nat) (c : OConfig) : OStepRes :=
  match c.mode with
  | .pop =>
    match c.stack with
    | [] => .fin (ostore c)
    | (n, d) :: rest =>
      match n with
      | .invalid => .fin (ostore { c with stack := rest })
      | .tree u =>
        let active := fun i => decide (d i < c.tfarReg i)
        if anyLane active = false then .cont { c with stack := rest }
        else if popcountLanes active ≤ thr then
          let term' := fun i =>
            c.terminated i || (active i && walkOcc1 i (c.tnearReg i) (c.rdir i) u c.ray)
          if allLanes term' then .fin (ostore { c with terminated := term', stack := rest })
          else .cont { c with terminated := term',
                              tfarReg := fun i => if term' i then ⊥ else c.tfarReg i,
                              stack := rest }
        else .cont { c with stack := rest, mode := .down n d }
  | .down cur curD =>
    match cur with
    | .invalid => .fin (ostore c)
    | .tree (.leaf prims) =>
      let hit := primOccluded (fun i => ! c.terminated i) c.ray prims
      let term' := fun i => c.terminated i || hit i
      if allLanes term' then .fin (ostore { c with terminated := term', mode := .pop })
      else .cont { c with terminated := term',
                          tfarReg := fun i => if term' i then ⊥ else c.tfarReg i,
                          mode := .pop }
    | .tree (.node ch) =>
      let pr := specPop c.stack
      let acc := processChildren c.ray.org c.rdir c.tnearReg c.tfarReg ch
        ⟨pr.1.1, pr.1.2, pr.2⟩
      if popcountLanes (fun i => decide (acc.curDist i < c.tfarReg i)) ≤ thr then
        .cont { c with stack := (acc.cur, acc.curDist) :: acc.stack, mode := .pop }
      else .cont { c with stack := acc.stack, mode := .down acc.cur acc.curDist }

/-- Fuel-indexed run of the any-hit walker. -/
def orun (thr : Nat) : Nat → OConfig → Option OConfig
  | 0, _ => none
  | fuel + 1, c =>
    match ostep thr c with
    | .fin c' => some c'
    | .cont c' => orun thr fuel c'

/-- The any-hit driver entry (source lines 290-319): `terminated = !valid`,
inactive lanes forced to `tnear = +inf`, `tfar = -inf`, stack seeded with
sentinel and root. -/
def mkOccludedConfig (valid : Fin 4 → Bool) (root : BVH4Tree) (r : Ray4) : OConfig :=
  let rdir := fun i => rcpSafeVec (r.dir i)
  let tnearReg : Dist4 := fun i => if valid i then r.tnear i else ⊤
  let tfarReg : Dist4 := fun i => if valid i then r.tfar i else ⊥
  { ray := r, rdir := rdir, tnearReg := tnearReg, tfarReg := tfarReg,
    valid := valid, terminated := fun i => ! valid i,
    stack := [(NRef.tree root, tnearReg), (NRef.invalid, fun _ => ⊤)],
    mode := .pop }

/-- `BVH4Intersector4Hybrid::occluded` with switch threshold `thr`. -/
def hybridOccluded (thr fuel : Nat) (valid : Fin 4 → Bool) (root : BVH4Tree) (r : Ray4) :
    Option OConfig :=
  orun thr fuel (mkOccludedConfig valid root r)

/-- A child box bounds its subtree's primitives, as seen by each lane's slab
test: every exact hit distance lies between the box's entry and exit distances.
Exact-arithmetic counterpart of "the BVH's boxes bound their geometry". -/
def boxBounds (org : Fin 4 → Vec3) (rdir : Fin 4 → Vec3) (box : AABB) (c : BVH4Tree) : Bool :=
  (primsOf c).all fun p => (List.finRange 4).all fun i =>
    match p.t i with
    | some t =>
        decide (slabNearQ (org i) (rdir i) box ≤ t) &&
        decide (t ≤ slabFarQ (org i) (rdir i) box)
    | none => true

mutual
/-- Well-formedness of a tree with respect to a ray packet's origins and
reciprocal directions: along every edge, the child's box bounds every
primitive below it. -/
def wfT (org : Fin 4 → Vec3) (rdir : Fin 4 → Vec3) : BVH4Tree → Bool
  | .leaf _ => true
  | .node ch => wfL org rdir ch

/-- Well-formedness below a child list. -/
def wfL (org : Fin 4 → Vec3) (rdir : Fin 4 → Vec3) : List (AABB × BVH4Tree) → Bool
  | [] => true
  | c :: cs => boxBounds org rdir c.1 c.2 && wfT org rdir c.2 && wfL org rdir cs
end

/-- One input ray of the stream API (AOS layout): the fields `AOStoSOA` reads. -/
structure RayAOS where
  org : Vec3
  dir : Vec3
  tnear : ℚ
  tfar : ℚ
  mask : Int
  instID : Int
deriving DecidableEq

/-- One SoA packet slot as `AOStoSOA` fills it. -/
structure SOASlot where
  org : Vec3
  dir : Vec3
  tnear : ℚ
  tfar : XRat
  mask : Int
  instID : Int
deriving DecidableEq

/-- The `RayK(zero, zero, zero, neg_inf)` slot initialization
(`bvh_intersector_stream.cpp` line 62); `mask`/`instID` are not set by that
constructor and are modelled as 0. -/
def soaInitSlot : SOASlot :=
  { org := ⟨0, 0, 0⟩, dir := ⟨0, 0, 0⟩, tnear := 0, tfar := ⊥, mask := 0, instID := 0 }

/-- `AOStoSOA` (`bvh_intersector_stream.cpp` lines 57-90) with K = 4, viewed as
the slot contents after the repack: slot `(packetID, slotID)` holds input ray
`packetID * 4 + slotID` with `tnear` replaced by `max(0, tnear)` and the other
copied fields unchanged; slots beyond the ray count keep the initialization. -/
def AOStoSOA (rays : List RayAOS) (packetID slotID : Nat) : SOASlot :=
  match rays.get? (packetID * 4 + slotID) with
  | some a =>
      { org := a.org, dir := a.dir, tnear := max 0 a.tnear, tfar := XRat.q a.tfar,
        mask := a.mask, instID := a.instID }
  | none => soaInitSlot

/-- The per-ray window setup of the stream single-ray fallback
(`bvh_intersector_stream.cpp` line 592): `ray_near = max(ray.tnear, 0.0f)`. -/
def stream1RayNear (tnear : ℚ) : ℚ := max tnear 0

/-- Outcome of a driver call that may terminate the process. -/
inductive CallOutcome where
  | returned (rays : List RayAOS)
  | exitedProcess (code : Nat)
deriving DecidableEq

/-- `BVHNGPUIntersectorStream::intersect` (unnamed source file, lines 189-200):
on entry the code tests `bvh->root == BVH::emptyNode` and, in that branch,
prints debug output and calls `exit(0)`, terminating the process before the
(DPC++-guarded) traversal body.  The body is out of scope here: the model
returns the ray stream unchanged for a non-empty root, which is all the
empty-tree claim needs. -/
def gpuStreamIntersect (root : BVH4Tree) (rays : List RayAOS) : CallOutcome :=
  match root with
  | .leaf [] => .exitedProcess 0
  | _ => .returned rays

/-- Modelled from the spec: the packet-stack capacity `stackSizeChunk` is a
constant of the BVH4 header, which is not among the repository's files here;
the spec (§3 Invariants) bounds it as "tree max depth + small margin".  The
margin is taken as 4. -/
def stackSizeChunkModel (maxDepth : Nat) : Nat := maxDepth + 4

/-- Box A of the mode-divergence scene: `x,y ∈ [-5,5]`, `z ∈ [1,20]`. -/
def boxA : AABB := ⟨⟨-5, -5, 1⟩, ⟨5, 5, 20⟩⟩

/-- Box B of the mode-divergence scene: `x ∈ [-100,70]`, `y ∈ [-5,5]`, `z ∈ [2,60]`. -/
def boxB : AABB := ⟨⟨-100, -5, 2⟩, ⟨70, 5, 60⟩⟩

/-- A primitive hit by lane 0 at distance 5, payload 1. -/
def primA : Prim := ⟨1, fun i => if i = 0 then some 5 else none⟩

/-- A second primitive hit by lane 0 at the same distance 5, payload 2. -/
def primB : Prim := ⟨2, fun i => if i = 0 then some 5 else none⟩

/-- The mode-divergence tree: one internal node, leaf A under box A, leaf B
under box B. -/
def treeC1 : BVH4Tree := .node [(boxA, .leaf [primA]), (boxB, .leaf [primB])]

/-- The mode-divergence packet: lane 0 shoots `+z` from the origin, lane 1
shoots `+x` from `(0,0,30)` (it misses box A's z-slab but hits box B nearer,
which drives the packet walker to visit B first); lanes 2 and 3 repeat lane 0's
geometry and are masked off. -/
def rayC1 : Ray4 :=
  { org := fun i => if i = 1 then ⟨0, 0, 30⟩ else ⟨0, 0, 0⟩
    dir := fun i => if i = 1 then ⟨1, 0, 0⟩ else ⟨0, 0, 1⟩
    time := fun _ => 0
    tnear := fun _ => XRat.q 0
    tfar := fun _ => XRat.q 100
    attr := fun _ => none
    geomID := fun _ => -1 }

/-- Valid mask of the mode-divergence packet: lanes 0 and 1. -/
def validC1 : Fin 4 → Bool := fun i => decide (i = 0) || decide (i = 1)

/-- A z-slab box `x,y ∈ [-5,5]`, `z ∈ [lo,hi]` (stack-occupancy scene). -/
def zbox (lo hi : ℚ) : AABB := ⟨⟨-5, -5, lo⟩, ⟨5, 5, hi⟩⟩

/-- An empty leaf. -/
def leafE : BVH4Tree := .leaf []

/-- Stack scene, grandchildren of the fourth child: entry distances 8..11. -/
def nodeD : BVH4Tree :=
  .node [(zbox 8 59, leafE), (zbox 9 59, leafE), (zbox 10 59, leafE), (zbox 11 59, leafE)]

/-- Stack scene, grandchildren of the first child of A4: entry distances 8.5..11.5. -/
def nodeCx : BVH4Tree :=
  .node [(zbox (17/2) 59, leafE), (zbox (19/2) 59, leafE),
         (zbox (21/2) 59, leafE), (zbox (23/2) 59, leafE)]

/-- Stack scene, first child of the root: four leaves at distances 5..8. -/
def nodeA1 : BVH4Tree :=
  .node [(zbox 5 99, leafE), (zbox 6 99, leafE), (zbox 7 99, leafE), (zbox 8 99, leafE)]

/-- Stack scene, fourth child of the root: two internal grandchildren. -/
def nodeA4 : BVH4Tree :=
  .node [(zbox (9/2) 60, nodeCx), (zbox (11/2) 60, leafE),
         (zbox (13/2) 60, leafE), (zbox (15/2) 60, nodeD)]

/-- The stack-occupancy tree: depth 3, every box hit by every lane. -/
def treeC9 : BVH4Tree :=
  .node [(zbox 1 100, nodeA1), (zbox 2 100, leafE), (zbox 3 100, leafE), (zbox 4 100, nodeA4)]

/-- The stack-occupancy packet: four identical valid rays along `+z`. -/
def rayC9 : Ray4 :=
  { org := fun _ => ⟨0, 0, 0⟩
    dir := fun _ => ⟨0, 0, 1⟩
    time := fun _ => 0
    tnear := fun _ => XRat.q 0
    tfar := fun _ => XRat.q 1000
    attr := fun _ => none
    geomID := fun _ => -1 }

/-- All four lanes valid. -/
def validAll : Fin 4 → Bool := fun _ => true

/-- Witness scene: one box `x,y ∈ [-5,5]`, `z ∈ [1,10]`. -/
def boxW : AABB := ⟨⟨-5, -5, 1⟩, ⟨5, 5, 10⟩⟩

/-- Witness primitive: lane 0 hits it at distance 5, payload 7. -/
def primW : Prim := ⟨7, fun i => if i = 0 then some 5 else none⟩

/-- Witness tree: a root node over one leaf. -/
def treeW : BVH4Tree := .node [(boxW, .leaf [primW])]

/-- Witness packet: all lanes shoot `+z` from the origin. -/
def rayW : Ray4 :=
  { org := fun _ => ⟨0, 0, 0⟩
    dir := fun _ => ⟨0, 0, 1⟩
    time := fun _ => 0
    tnear := fun _ => XRat.q 0
    tfar := fun _ => XRat.q 100
    attr := fun _ => none
    geomID := fun _ => -1 }

/-- Witness valid mask: lane 0 only. -/
def validW : Fin 4 → Bool := fun i => decide (i = 0)

/-- Concatenated primitive lists of a hit-children list. -/
def concatPrimsH : List (ℚ × BVH4Tree) → List Prim
  | [] => []
  | p :: ps => primsOf p.2 ++ concatPrimsH ps

/-- Frame of a single-lane walker: every ray field except lane `i`'s
`tfar`/`attr` is unchanged, and lane `i`'s `tfar` does not increase. -/
def FrameLe (i : Fin 4) (r r2 : Ray4) : Prop :=
  r2.org = r.org ∧ r2.dir = r.dir ∧ r2.time = r.time ∧ r2.tnear = r.tnear ∧
    r2.geomID = r.geomID ∧ r2.tfar i ≤ r.tfar i ∧
    ∀ j, j ≠ i → r2.tfar j = r.tfar j ∧ r2.attr j = r.attr j

/-- Per-lane soundness of committed hit state relative to the packet at entry
(`r0`) and the tree's primitive list (`all`): the lane's `tfar` never rose, and
either the lane's hit state is untouched or it records an actual primitive of
the tree within the entry window, at distance exactly `tfar`. -/
def SoundLane (r0 : Ray4) (all : List Prim) (r : Ray4) (i : Fin 4) : Prop :=
  r.tfar i ≤ r0.tfar i ∧
    ((r.tfar i = r0.tfar i ∧ r.attr i = r0.attr i) ∨
      ∃ p, p ∈ all ∧ (r0.tnear i ≤ primT p i ∧ primT p i < r0.tfar i) ∧
        primT p i = r.tfar i ∧ r.attr i = some p.id)

theorem windowMin_nil (tn tf : XRat) (i : Fin 4) : windowMin tn tf [] i = tf := rfl

theorem windowMin_cons (tn tf : XRat) (p : Prim) (ps : List Prim) (i : Fin 4) :
    windowMin tn tf (p :: ps) i =
      windowMin tn (if tn ≤ primT p i ∧ primT p i < tf then primT p i else tf) ps i := rfl

theorem windowMin_le_init (tn tf : XRat) (ps : List Prim) (i : Fin 4) :
    windowMin tn tf ps i ≤ tf := by
  induction ps generalizing tf with
  | nil => exact le_refl _
  | cons p ps ih =>
      rw [windowMin_cons]
      split_ifs with h
      · exact le_trans (ih _) (le_of_lt h.2)
      · exact ih _

theorem windowMin_le_mem (tn : XRat) (ps : List Prim) (i : Fin 4) (p : Prim)
    (hp : p ∈ ps) (h1 : tn ≤ primT p i) :
    ∀ tf : XRat, primT p i < tf → windowMin tn tf ps i ≤ primT p i := by
  induction ps with
  | nil => cases hp
  | cons q qs ih =>
      intro tf h2
      rw [windowMin_cons]
      rcases List.mem_cons.mp hp with h | hq
      · subst h
        rw [if_pos ⟨h1, h2⟩]
        exact windowMin_le_init tn (primT p i) qs i
      · by_cases hlt : primT p i < (if tn ≤ primT q i ∧ primT q i < tf then primT q i else tf)
        · exact ih hq _ hlt
        · push_neg at hlt
          exact le_trans (windowMin_le_init tn _ qs i) hlt

theorem windowMin_cases (tn : XRat) (ps : List Prim) (i : Fin 4) :
    ∀ tf : XRat, windowMin tn tf ps i = tf ∨
      ∃ p, p ∈ ps ∧ tn ≤ primT p i ∧ primT p i < tf ∧ windowMin tn tf ps i = primT p i := by
  induction ps with
  | nil => exact fun tf => Or.inl rfl
  | cons q qs ih =>
      intro tf
      rw [windowMin_cons]
      split_ifs with h
      · rcases ih (primT q i) with h0 | ⟨p, hp, h1, h2, h3⟩
        · exact Or.inr ⟨q, List.mem_cons_self q qs, h.1, h.2, h0⟩
        · exact Or.inr ⟨p, List.mem_cons_of_mem _ hp, h1, lt_trans h2 h.2, h3⟩
      · rcases ih tf with h0 | ⟨p, hp, h1, h2, h3⟩
        · exact Or.inl h0
        · exact Or.inr ⟨p, List.mem_cons_of_mem _ hp, h1, h2, h3⟩

theorem windowMin_le_of_subset (tn tf : XRat) (ps qs : List Prim) (i : Fin 4)
    (h : ∀ p, p ∈ qs → p ∈ ps) : windowMin tn tf ps i ≤ windowMin tn tf qs i := by
  rcases windowMin_cases tn qs i tf with h0 | ⟨p, hp, h1, h2, h3⟩
  · rw [h0]
    exact windowMin_le_init tn tf ps i
  · rw [h3]
    exact windowMin_le_mem tn ps i p (h p hp) h1 tf h2

theorem windowMin_eq_of_mem_iff (tn tf : XRat) (ps qs : List Prim) (i : Fin 4)
    (h : ∀ p, p ∈ ps ↔ p ∈ qs) : windowMin tn tf ps i = windowMin tn tf qs i :=
  le_antisymm (windowMin_le_of_subset tn tf ps qs i fun p hp => (h p).mpr hp)
    (windowMin_le_of_subset tn tf qs ps i fun p hp => (h p).mp hp)

theorem windowMin_no_window (tn tf : XRat) (ps : List Prim) (i : Fin 4)
    (h : ∀ p, p ∈ ps → ¬(tn ≤ primT p i ∧ primT p i < tf)) : windowMin tn tf ps i = tf := by
  rcases windowMin_cases tn ps i tf with h0 | ⟨p, hp, h1, h2, _⟩
  · exact h0
  · exact absurd ⟨h1, h2⟩ (h p hp)

theorem windowMin_absorb (tn tf : XRat) (ps qs : List Prim) (i : Fin 4) :
    windowMin tn (windowMin tn tf ps i) qs i = windowMin tn tf (ps ++ qs) i := by
  apply le_antisymm
  · rcases windowMin_cases tn (ps ++ qs) i tf with h0 | ⟨p, hp, h1, h2, h3⟩
    · rw [h0]
      exact le_trans (windowMin_le_init tn _ qs i) (windowMin_le_init tn tf ps i)
    · rw [h3]
      rcases List.mem_append.mp hp with hps | hqs
      · exact le_trans (windowMin_le_init tn _ qs i) (windowMin_le_mem tn ps i p hps h1 tf h2)
      · by_cases hlt : primT p i < windowMin tn tf ps i
        · exact windowMin_le_mem tn qs i p hqs h1 _ hlt
        · push_neg at hlt
          exact le_trans (windowMin_le_init tn _ qs i) hlt
  · rcases windowMin_cases tn qs i (windowMin tn tf ps i) with h0 | ⟨p, hp, h1, h2, h3⟩
    · rw [h0]
      rcases windowMin_cases tn ps i tf with h0p | ⟨p, hp, h1, h2, h3p⟩
      · rw [h0p]
        exact windowMin_le_init tn tf (ps ++ qs) i
      · rw [h3p]
        exact windowMin_le_mem tn (ps ++ qs) i p (List.mem_append_left _ hp) h1 tf h2
    · rw [h3]
      exact windowMin_le_mem tn (ps ++ qs) i p (List.mem_append_right _ hp) h1 tf
        (lt_of_lt_of_le h2 (windowMin_le_init tn tf ps i))

theorem primIntersect_cons (v : Fin 4 → Bool) (r : Ray4) (p : Prim) (ps : List Prim) :
    primIntersect v r (p :: ps) = primIntersect v (commitPrim v r p) ps := rfl

theorem commitPrim_tfar (v : Fin 4 → Bool) (r : Ray4) (p : Prim) (i : Fin 4) :
    (commitPrim v r p).tfar i =
      if v i = true ∧ r.tnear i ≤ primT p i ∧ primT p i < r.tfar i then primT p i
      else r.tfar i := by
  simp only [commitPrim, Bool.and_eq_true, decide_eq_true_eq, and_assoc]

theorem commitPrim_attr (v : Fin 4 → Bool) (r : Ray4) (p : Prim) (i : Fin 4) :
    (commitPrim v r p).attr i =
      if v i = true ∧ r.tnear i ≤ primT p i ∧ primT p i < r.tfar i then some p.id
      else r.attr i := by
  simp only [commitPrim, Bool.and_eq_true, decide_eq_true_eq, and_assoc]

theorem primIntersect_frame (v : Fin 4 → Bool) (ps : List Prim) :
    ∀ r : Ray4, (primIntersect v r ps).org = r.org ∧ (primIntersect v r ps).dir = r.dir ∧
      (primIntersect v r ps).time = r.time ∧ (primIntersect v r ps).tnear = r.tnear ∧
      (primIntersect v r ps).geomID = r.geomID := by
  induction ps with
  | nil => exact fun r => ⟨rfl, rfl, rfl, rfl, rfl⟩
  | cons p ps ih =>
      intro r
      rw [primIntersect_cons]
      exact ih (commitPrim v r p)

theorem primIntersect_inactive (v : Fin 4 → Bool) (ps : List Prim) (i : Fin 4)
    (hv : v i = false) :
    ∀ r : Ray4, (primIntersect v r ps).tfar i = r.tfar i ∧
      (primIntersect v r ps).attr i = r.attr i := by
  induction ps with
  | nil => exact fun r => ⟨rfl, rfl⟩
  | cons p ps ih =>
      intro r
      rw [primIntersect_cons]
      have hcond : ¬(v i = true ∧ r.tnear i ≤ primT p i ∧ primT p i < r.tfar i) := by
        simp [hv]
      obtain ⟨h1, h2⟩ := ih (commitPrim v r p)
      rw [h1, h2, commitPrim_tfar, commitPrim_attr, if_neg hcond, if_neg hcond]
      exact ⟨rfl, rfl⟩

theorem commitPrim_tfar_le (v : Fin 4 → Bool) (r : Ray4) (p : Prim) (i : Fin 4) :
    (commitPrim v r p).tfar i ≤ r.tfar i := by
  rw [commitPrim_tfar]
  split_ifs with h
  · exact le_of_lt h.2.2
  · exact le_refl _

theorem primIntersect_tfar_le (v : Fin 4 → Bool) (ps : List Prim) (i : Fin 4) :
    ∀ r : Ray4, (primIntersect v r ps).tfar i ≤ r.tfar i := by
  induction ps with
  | nil => exact fun r => le_refl _
  | cons p ps ih =>
      intro r
      rw [primIntersect_cons]
      exact le_trans (ih (commitPrim v r p)) (commitPrim_tfar_le v r p i)

theorem primIntersect_tfar (v : Fin 4 → Bool) (ps : List Prim) (i : Fin 4) (hv : v i = true) :
    ∀ r : Ray4, (primIntersect v r ps).tfar i = windowMin (r.tnear i) (r.tfar i) ps i := by
  induction ps with
  | nil => exact fun r => rfl
  | cons p ps ih =>
      intro r
      rw [primIntersect_cons, ih (commitPrim v r p), windowMin_cons]
      have htn : (commitPrim v r p).tnear i = r.tnear i := rfl
      rw [htn]
      have htf : (commitPrim v r p).tfar i =
          if r.tnear i ≤ primT p i ∧ primT p i < r.tfar i then primT p i else r.tfar i := by
        rw [commitPrim_tfar]
        simp [hv]
      rw [htf]

theorem commitPrim_sound (r0 : Ray4) (all : List Prim) (v : Fin 4 → Bool) (r : Ray4) (p : Prim)
    (hp : p ∈ all) (i : Fin 4) (htn : r.tnear i = r0.tnear i)
    (hs : SoundLane r0 all r i) : SoundLane r0 all (commitPrim v r p) i := by
  obtain ⟨hle, hor⟩ := hs
  by_cases hc : v i = true ∧ r.tnear i ≤ primT p i ∧ primT p i < r.tfar i
  · constructor
    · rw [commitPrim_tfar, if_pos hc]
      exact le_trans (le_of_lt hc.2.2) hle
    · right
      refine ⟨p, hp, ⟨htn ▸ hc.2.1, lt_of_lt_of_le hc.2.2 hle⟩, ?_, ?_⟩
      · rw [commitPrim_tfar, if_pos hc]
      · rw [commitPrim_attr, if_pos hc]
  · constructor
    · rw [commitPrim_tfar, if_neg hc]
      exact hle
    · rw [commitPrim_tfar, if_neg hc, commitPrim_attr, if_neg hc]
      exact hor

theorem primIntersect_sound (r0 : Ray4) (all : List Prim) (v : Fin 4 → Bool) (ps : List Prim)
    (hsub : ∀ p, p ∈ ps → p ∈ all) (i : Fin 4) :
    ∀ r : Ray4, r.tnear i = r0.tnear i → SoundLane r0 all r i →
      SoundLane r0 all (primIntersect v r ps) i := by
  induction ps with
  | nil => exact fun r _ hs => hs
  | cons p ps ih =>
      intro r htn hs
      rw [primIntersect_cons]
      exact ih (fun q hq => hsub q (List.mem_cons_of_mem _ hq)) (commitPrim v r p) htn
        (commitPrim_sound r0 all v r p (hsub p (List.mem_cons_self p ps)) i htn hs)

theorem XRat.q_le_q {a b : ℚ} : XRat.q a ≤ XRat.q b ↔ a ≤ b := by
  simp [XRat.q]

theorem XRat.q_lt_q {a b : ℚ} : XRat.q a < XRat.q b ↔ a < b := by
  simp [XRat.q]

theorem XRat.q_lt_top (a : ℚ) : XRat.q a < ⊤ := by
  rw [XRat.q]
  exact WithBot.coe_lt_coe.mpr (WithTop.coe_lt_top a)

theorem XRat.bot_lt_q (a : ℚ) : (⊥ : XRat) < XRat.q a :=
  WithBot.bot_lt_coe _

theorem FrameLe_refl (i : Fin 4) (r : Ray4) : FrameLe i r r :=
  ⟨rfl, rfl, rfl, rfl, rfl, le_refl _, fun _ _ => ⟨rfl, rfl⟩⟩

theorem FrameLe_trans {i : Fin 4} {r1 r2 r3 : Ray4}
    (h12 : FrameLe i r1 r2) (h23 : FrameLe i r2 r3) : FrameLe i r1 r3 := by
  obtain ⟨a1, b1, c1, d1, e1, f1, g1⟩ := h12
  obtain ⟨a2, b2, c2, d2, e2, f2, g2⟩ := h23
  refine ⟨a2.trans a1, b2.trans b1, c2.trans c1, d2.trans d1, e2.trans e1,
    f2.trans f1, fun j hj => ?_⟩
  obtain ⟨p1, q1⟩ := g1 j hj
  obtain ⟨p2, q2⟩ := g2 j hj
  exact ⟨p2.trans p1, q2.trans q1⟩

theorem primIntersect_laneMask_FrameLe (i : Fin 4) (r : Ray4) (ps : List Prim) :
    FrameLe i r (primIntersect (laneMask i) r ps) := by
  obtain ⟨h1, h2, h3, h4, h5⟩ := primIntersect_frame (laneMask i) ps r
  refine ⟨h1, h2, h3, h4, h5, primIntersect_tfar_le (laneMask i) ps i r, fun j hj => ?_⟩
  exact primIntersect_inactive (laneMask i) ps j (by simp [laneMask, hj]) r

theorem walkList_FrameLe :
    ∀ (i : Fin 4) (tn : XRat) (rdir : Vec3) (l : List (ℚ × BVH4Tree)) (r : Ray4),
      FrameLe i r (walkList i tn rdir l r) := by
  refine walkList.induct
    (fun i tn rdir t r => FrameLe i r (walk1 i tn rdir t r))
    (fun i tn rdir l r => FrameLe i r (walkList i tn rdir l r))
    ?_ ?_ ?_ ?_
  · intro i tn rdir r ps
    rw [walk1]
    exact primIntersect_laneMask_FrameLe i r ps
  · intro i tn rdir r ch ih
    rw [walk1]
    exact ih
  · intro i tn rdir r
    rw [walkList]
    exact FrameLe_refl i r
  · intro i tn rdir p ps r ih1 ih2
    rw [walkList]
    exact FrameLe_trans ih1 ih2

theorem walk1_FrameLe (i : Fin 4) (tn : XRat) (rdir : Vec3) (t : BVH4Tree) (r : Ray4) :
    FrameLe i r (walk1 i tn rdir t r) := by
  cases t with
  | leaf ps =>
      rw [walk1]
      exact primIntersect_laneMask_FrameLe i r ps
  | node ch =>
      rw [walk1]
      exact walkList_FrameLe i tn rdir _ r

theorem mem_insertByDist (p q : ℚ × BVH4Tree) (l : List (ℚ × BVH4Tree)) :
    q ∈ insertByDist p l ↔ q = p ∨ q ∈ l := by
  induction l with
  | nil => simp [insertByDist]
  | cons a as ih =>
      by_cases h : p.1 < a.1
      · simp [insertByDist, h]
      · simp only [insertByDist, if_neg h, List.mem_cons, ih]
        tauto

theorem mem_sortByDist (q : ℚ × BVH4Tree) (l : List (ℚ × BVH4Tree)) :
    q ∈ sortByDist l ↔ q ∈ l := by
  induction l with
  | nil => simp [sortByDist]
  | cons a as ih => simp [sortByDist, mem_insertByDist, ih]

theorem mem_collectHits (i : Fin 4) (tn : XRat) (rdir : Vec3) (r : Ray4)
    (ch : List (AABB × BVH4Tree)) (q : ℚ × BVH4Tree) :
    q ∈ collectHits i tn rdir r ch ↔
      ∃ box, (box, q.2) ∈ ch ∧ q.1 = slabNearQ (r.org i) rdir box ∧
        slabHit tn (r.tfar i) (slabNearQ (r.org i) rdir box) (slabFarQ (r.org i) rdir box) = true := by
  induction ch with
  | nil => simp [collectHits]
  | cons c cs ih =>
      obtain ⟨box, sub⟩ := c
      simp only [collectHits]
      by_cases h : slabHit tn (r.tfar i) (slabNearQ (r.org i) rdir box) (slabFarQ (r.org i) rdir box) = true
      · rw [if_pos h]
        constructor
        · intro hq
          rcases List.mem_cons.mp hq with rfl | hq2
          · exact ⟨box, List.mem_cons_self _ _, rfl, h⟩
          · obtain ⟨b2, hb2, he, hh⟩ := ih.mp hq2
            exact ⟨b2, List.mem_cons_of_mem _ hb2, he, hh⟩
        · rintro ⟨b2, hb2, he, hh⟩
          rcases List.mem_cons.mp hb2 with heq | hb3
          · obtain ⟨q1, q2⟩ := q
            cases heq
            rw [List.mem_cons]
            left
            simp only at he
            rw [he]
          · exact List.mem_cons_of_mem _ (ih.mpr ⟨b2, hb3, he, hh⟩)
      · rw [if_neg h]
        constructor
        · intro hq
          obtain ⟨b2, hb2, he, hh⟩ := ih.mp hq
          exact ⟨b2, List.mem_cons_of_mem _ hb2, he, hh⟩
        · rintro ⟨b2, hb2, he, hh⟩
          rcases List.mem_cons.mp hb2 with heq | hb3
          · obtain ⟨q1, q2⟩ := q
            cases heq
            exact absurd hh h
          · exact ih.mpr ⟨b2, hb3, he, hh⟩

theorem mem_concatPrimsH (p : Prim) (l : List (ℚ × BVH4Tree)) :
    p ∈ concatPrimsH l ↔ ∃ q, q ∈ l ∧ p ∈ primsOf q.2 := by
  induction l with
  | nil => simp [concatPrimsH]
  | cons a as ih =>
      simp only [concatPrimsH, List.mem_append, ih, List.mem_cons]
      constructor
      · rintro (h | ⟨q, hq, hp⟩)
        · exact ⟨a, Or.inl rfl, h⟩
        · exact ⟨q, Or.inr hq, hp⟩
      · rintro ⟨q, hq | hq, hp⟩
        · subst hq
          exact Or.inl hp
        · exact Or.inr ⟨q, hq, hp⟩

theorem primsOf_sub_of_mem (box : AABB) (c : BVH4Tree) (ch : List (AABB × BVH4Tree))
    (h : (box, c) ∈ ch) : ∀ p, p ∈ primsOf c → p ∈ primsOfL ch := by
  induction ch with
  | nil => cases h
  | cons a as ih =>
      intro p hp
      rcases List.mem_cons.mp h with heq | hmem
      · rw [primsOfL, List.mem_append]
        left
        rw [← heq]
        exact hp
      · rw [primsOfL, List.mem_append]
        exact Or.inr (ih hmem p hp)

theorem wfL_spec (org rdirF : Fin 4 → Vec3) (ch : List (AABB × BVH4Tree))
    (hwf : wfL org rdirF ch = true) (box : AABB) (c : BVH4Tree) (hmem : (box, c) ∈ ch) :
    boxBounds org rdirF box c = true ∧ wfT org rdirF c = true := by
  induction ch with
  | nil => cases hmem
  | cons a as ih =>
      rw [wfL, Bool.and_eq_true, Bool.and_eq_true] at hwf
      rcases List.mem_cons.mp hmem with heq | hmem2
      · have h1 := hwf.1.1
        have h2 := hwf.1.2
        rw [← heq] at h1 h2
        exact ⟨h1, h2⟩
      · exact ih hwf.2 hmem2

theorem boxBounds_spec (org rdirF : Fin 4 → Vec3) (box : AABB) (c : BVH4Tree)
    (hb : boxBounds org rdirF box c = true) (p : Prim) (hp : p ∈ primsOf c) (i : Fin 4)
    (t : ℚ) (ht : p.t i = some t) :
    slabNearQ (org i) (rdirF i) box ≤ t ∧ t ≤ slabFarQ (org i) (rdirF i) box := by
  rw [boxBounds, List.all_eq_true] at hb
  have h := hb p hp
  rw [List.all_eq_true] at h
  have h2 := h i (List.mem_finRange i)
  rw [ht] at h2
  simpa using h2

theorem slabHit_of_window (org rdir : Vec3) (box : AABB) (t : ℚ) (tn tf : XRat)
    (hn : slabNearQ org rdir box ≤ t) (hf : t ≤ slabFarQ org rdir box)
    (h1 : tn ≤ XRat.q t) (h2 : XRat.q t < tf) :
    slabHit tn tf (slabNearQ org rdir box) (slabFarQ org rdir box) = true ∧
      XRat.q (slabNearQ org rdir box) ≤ XRat.q t := by
  have hqn : XRat.q (slabNearQ org rdir box) ≤ XRat.q t := XRat.q_le_q.mpr hn
  have hqf : XRat.q t ≤ XRat.q (slabFarQ org rdir box) := XRat.q_le_q.mpr hf
  refine ⟨?_, hqn⟩
  rw [slabHit, decide_eq_true_eq]
  exact le_trans (max_le hqn h1) (le_min hqf (le_of_lt h2))

theorem cull_no_window (i : Fin 4) (tn : XRat) (rdirF : Fin 4 → Vec3) (r : Ray4)
    (box : AABB) (sub : BVH4Tree) (hb : boxBounds r.org rdirF box sub = true)
    (hmiss : ¬(slabHit tn (r.tfar i) (slabNearQ (r.org i) (rdirF i) box)
      (slabFarQ (r.org i) (rdirF i) box) = true))
    (tf : XRat) (htf : tf ≤ r.tfar i) :
    ∀ p, p ∈ primsOf sub → ¬(tn ≤ primT p i ∧ primT p i < tf) := by
  rintro p hp ⟨h1, h2⟩
  cases ht : p.t i with
  | none =>
      rw [primT, ht] at h2
      exact not_top_lt h2
  | some t =>
      obtain ⟨hn, hf⟩ := boxBounds_spec r.org rdirF box sub hb p hp i t ht
      rw [primT, ht] at h1 h2
      exact hmiss (slabHit_of_window (r.org i) (rdirF i) box t tn (r.tfar i) hn hf h1
        (lt_of_lt_of_le h2 htf)).1

theorem windowMin_hits_eq (i : Fin 4) (tn : XRat) (rdirF : Fin 4 → Vec3) (r : Ray4) :
    ∀ ch : List (AABB × BVH4Tree), wfL r.org rdirF ch = true →
      ∀ tf : XRat, tf ≤ r.tfar i →
        windowMin tn tf (concatPrimsH (collectHits i tn (rdirF i) r ch)) i =
          windowMin tn tf (primsOfL ch) i := by
  intro ch
  induction ch with
  | nil =>
      intro _ tf _
      rfl
  | cons c cs ih =>
      intro hwf tf htf
      obtain ⟨box, sub⟩ := c
      rw [wfL] at hwf
      simp only [Bool.and_eq_true] at hwf
      obtain ⟨⟨hb, _⟩, hwcs⟩ := hwf
      simp only [collectHits, primsOfL]
      by_cases hhit : slabHit tn (r.tfar i) (slabNearQ (r.org i) (rdirF i) box)
          (slabFarQ (r.org i) (rdirF i) box) = true
      · rw [if_pos hhit]
        simp only [concatPrimsH]
        rw [← windowMin_absorb tn tf (primsOf (slabNearQ (r.org i) (rdirF i) box, sub).2)
              (concatPrimsH (collectHits i tn (rdirF i) r cs)) i,
            ← windowMin_absorb tn tf (primsOf sub) (primsOfL cs) i]
        exact ih hwcs (windowMin tn tf (primsOf sub) i)
          (le_trans (windowMin_le_init tn tf (primsOf sub) i) htf)
      · rw [if_neg hhit]
        rw [← windowMin_absorb tn tf (primsOf sub) (primsOfL cs) i,
            windowMin_no_window tn tf (primsOf sub) i
              (cull_no_window i tn rdirF r box sub hb hhit tf htf)]
        exact ih hwcs tf htf

theorem walk1_complete :
    ∀ (i : Fin 4) (tn : XRat) (rdir : Vec3) (t : BVH4Tree) (r : Ray4),
      ∀ rdirF : Fin 4 → Vec3, rdir = rdirF i → wfT r.org rdirF t = true →
        tn = r.tnear i →
        (walk1 i tn rdir t r).tfar i = windowMin tn (r.tfar i) (primsOf t) i := by
  refine walk1.induct
    (fun i tn rdir t r => ∀ rdirF : Fin 4 → Vec3, rdir = rdirF i →
      wfT r.org rdirF t = true → tn = r.tnear i →
      (walk1 i tn rdir t r).tfar i = windowMin tn (r.tfar i) (primsOf t) i)
    (fun i tn rdir l r => ∀ rdirF : Fin 4 → Vec3, rdir = rdirF i →
      (∀ q, q ∈ l → wfT r.org rdirF q.2 = true) → tn = r.tnear i →
      (walkList i tn rdir l r).tfar i = windowMin tn (r.tfar i) (concatPrimsH l) i)
    ?_ ?_ ?_ ?_
  · intro i tn rdir r ps rdirF _ _ htn
    rw [walk1, primIntersect_tfar (laneMask i) ps i (by simp [laneMask]) r, primsOf, htn]
  · intro i tn rdir r ch ih rdirF hrd hwf htn
    rw [walk1]
    have hwfL : wfL r.org rdirF ch = true := by rw [wfT] at hwf; exact hwf
    have hmem : ∀ q, q ∈ sortByDist (collectHits i tn rdir r ch) →
        wfT r.org rdirF q.2 = true := by
      intro q hq
      rw [mem_sortByDist] at hq
      obtain ⟨box, hb, _, _⟩ := (mem_collectHits i tn rdir r ch q).mp hq
      exact (wfL_spec r.org rdirF ch hwfL box q.2 hb).2
    rw [ih rdirF hrd hmem htn]
    have hsort : windowMin tn (r.tfar i)
        (concatPrimsH (sortByDist (collectHits i tn rdir r ch))) i
        = windowMin tn (r.tfar i) (concatPrimsH (collectHits i tn rdir r ch)) i := by
      apply windowMin_eq_of_mem_iff
      intro p
      rw [mem_concatPrimsH, mem_concatPrimsH]
      constructor
      · rintro ⟨q, hq, hp⟩
        exact ⟨q, (mem_sortByDist q _).mp hq, hp⟩
      · rintro ⟨q, hq, hp⟩
        exact ⟨q, (mem_sortByDist q _).mpr hq, hp⟩
    rw [hsort, hrd, windowMin_hits_eq i tn rdirF r ch hwfL (r.tfar i) (le_refl _)]
    rfl
  · intro i tn rdir r rdirF _ _ _
    rw [walkList]
    rfl
  · intro i tn rdir p ps r ih1 ih2 rdirF hrd hwf htn
    rw [walkList]
    have hfr := walk1_FrameLe i tn rdir p.2 r
    have horg : (walk1 i tn rdir p.2 r).org = r.org := hfr.1
    have htn1 : tn = (walk1 i tn rdir p.2 r).tnear i := by
      rw [hfr.2.2.2.1]
      exact htn
    have hwf2 : ∀ q, q ∈ ps → wfT (walk1 i tn rdir p.2 r).org rdirF q.2 = true := by
      intro q hq
      rw [horg]
      exact hwf q (List.mem_cons_of_mem _ hq)
    rw [ih2 rdirF hrd hwf2 htn1,
        ih1 rdirF hrd (hwf p (List.mem_cons_self p ps)) htn,
        windowMin_absorb]
    rfl

theorem walk1_sound :
    ∀ (i : Fin 4) (tn : XRat) (rdir : Vec3) (t : BVH4Tree) (r : Ray4),
      ∀ (r0 : Ray4) (all : List Prim), (∀ p, p ∈ primsOf t → p ∈ all) →
        r.tnear i = r0.tnear i → SoundLane r0 all r i →
        SoundLane r0 all (walk1 i tn rdir t r) i := by
  refine walk1.induct
    (fun i tn rdir t r => ∀ (r0 : Ray4) (all : List Prim),
      (∀ p, p ∈ primsOf t → p ∈ all) → r.tnear i = r0.tnear i →
      SoundLane r0 all r i → SoundLane r0 all (walk1 i tn rdir t r) i)
    (fun i tn rdir l r => ∀ (r0 : Ray4) (all : List Prim),
      (∀ p, p ∈ concatPrimsH l → p ∈ all) → r.tnear i = r0.tnear i →
      SoundLane r0 all r i → SoundLane r0 all (walkList i tn rdir l r) i)
    ?_ ?_ ?_ ?_
  · intro i tn rdir r ps r0 all hsub htn hs
    rw [walk1]
    refine primIntersect_sound r0 all (laneMask i) ps ?_ i r htn hs
    intro p hp
    exact hsub p hp
  · intro i tn rdir r ch ih r0 all hsub htn hs
    rw [walk1]
    refine ih r0 all ?_ htn hs
    intro p hp
    rw [mem_concatPrimsH] at hp
    obtain ⟨q, hq, hpq⟩ := hp
    rw [mem_sortByDist] at hq
    obtain ⟨box, hbox, _, _⟩ := (mem_collectHits i tn rdir r ch q).mp hq
    apply hsub
    rw [primsOf]
    exact primsOf_sub_of_mem box q.2 ch hbox p hpq
  · intro i tn rdir r r0 all _ _ hs
    rw [walkList]
    exact hs
  · intro i tn rdir p ps r ih1 ih2 r0 all hsub htn hs
    rw [walkList]
    have hfr := walk1_FrameLe i tn rdir p.2 r
    have htn1 : (walk1 i tn rdir p.2 r).tnear i = r0.tnear i := by
      rw [hfr.2.2.2.1]
      exact htn
    refine ih2 r0 all ?_ htn1 ?_
    · intro q hq
      apply hsub
      rw [concatPrimsH, List.mem_append]
      exact Or.inr hq
    · refine ih1 r0 all ?_ htn hs
      intro q hq
      apply hsub
      rw [concatPrimsH, List.mem_append]
      exact Or.inl hq

/-- The configuration a step result carries (continuing or final). -/
def stepConfig : StepRes → PConfig
  | .cont c => c
  | .fin c => c

/-- The stack-bottom sentinel entry as seeded by the drivers. -/
def sentE : StackE := (NRef.invalid, fun _ => ⊤)

/-- All entries the walker still owes a visit: the in-register node (in down
mode) above the stack proper. -/
def entriesOf (c : PConfig) : List StackE :=
  match c.mode with
  | .pop => c.stack
  | .down cur curD => (cur, curD) :: c.stack

/-- An entry is the sentinel or a well-formed subtree of the root. -/
def EntryWf (root : BVH4Tree) (org rdirF : Fin 4 → Vec3) (e : StackE) : Prop :=
  e.1 = NRef.invalid ∨ ∃ u, e.1 = NRef.tree u ∧ wfT org rdirF u = true ∧
    ∀ p, p ∈ primsOf u → p ∈ primsOf root

/-- The sentinel sits at the bottom of the entry list and nowhere else. -/
def KbList (l : List StackE) : Prop :=
  ∃ bs, l = bs ++ [sentE] ∧ ∀ e, e ∈ bs → e.1 ≠ NRef.invalid

/-- The per-lane best reachable distance in the whole tree: the lane's
closest-hit result over the entry window. -/
def laneMin (root : BVH4Tree) (r0 : Ray4) (i : Fin 4) : XRat :=
  windowMin (r0.tnear i) (r0.tfar i) (primsOf root) i

/-- An entry still holding lane `i`'s global minimizer, reachable by the lane:
its subtree contains a primitive at the global minimum within the entry window,
and the entry's near distance does not exceed it. -/
def PendingE (root : BVH4Tree) (r0 : Ray4) (i : Fin 4) (e : StackE) : Prop :=
  ∃ u, e.1 = NRef.tree u ∧ ∃ p, p ∈ primsOf u ∧
    (r0.tnear i ≤ primT p i ∧ primT p i < r0.tfar i) ∧
    primT p i = laneMin root r0 i ∧ e.2 i ≤ primT p i

/-- State invariant of the closest-hit walker that needs no tree
well-formedness: the packet's immutable fields, the derived registers, the
monotone `tfar`, register/field agreement on valid lanes, and untouched
inactive lanes. -/
def BaseInv (valid : Fin 4 → Bool) (r0 : Ray4) (c : PConfig) : Prop :=
  c.ray.org = r0.org ∧ c.ray.dir = r0.dir ∧ c.ray.time = r0.time ∧
  c.ray.tnear = r0.tnear ∧ c.ray.geomID = r0.geomID ∧
  c.rdir = (fun i => rcpSafeVec (r0.dir i)) ∧
  c.tnearReg = (fun i => if valid i then r0.tnear i else ⊤) ∧
  (∀ i, c.ray.tfar i ≤ r0.tfar i) ∧
  (∀ i, valid i = true → c.tfarReg i = c.ray.tfar i) ∧
  (∀ i, valid i = false →
    c.tfarReg i = ⊥ ∧ c.ray.tfar i = r0.tfar i ∧ c.ray.attr i = r0.attr i)

/-- Completeness invariant of the closest-hit walker: on top of `BaseInv`,
every entry is a well-formed subtree (or the sentinel), the sentinel sits at
the bottom, every committed hit is sound, and for every valid lane the
register either already equals the lane's global minimum or some entry still
pends with its minimizer. -/
def CompInv (valid : Fin 4 → Bool) (root : BVH4Tree) (r0 : Ray4) (c : PConfig) : Prop :=
  BaseInv valid r0 c ∧
  KbList (entriesOf c) ∧
  (∀ e, e ∈ entriesOf c → EntryWf root r0.org (fun i => rcpSafeVec (r0.dir i)) e) ∧
  (∀ i, valid i = true → SoundLane r0 (primsOf root) c.ray i) ∧
  (∀ i, valid i = true →
    laneMin root r0 i ≤ c.tfarReg i ∧
    (c.tfarReg i = laneMin root r0 i ∨ ∃ e, e ∈ entriesOf c ∧ PendingE root r0 i e))

mutual
/-- Every internal node has at most four children (the BVH4 arity). -/
def arity4T : BVH4Tree → Bool
  | .leaf _ => true
  | .node ch => decide (ch.length ≤ 4) && arity4L ch

/-- Arity check below a child list. -/
def arity4L : List (AABB × BVH4Tree) → Bool
  | [] => true
  | c :: cs => arity4T c.2 && arity4L cs
end

/-- An entry holds the sentinel or a subtree of bounded arity. -/
def EntryArity (e : StackE) : Prop :=
  e.1 = NRef.invalid ∨ ∃ u, e.1 = NRef.tree u ∧ arity4T u = true

/-- Stack-occupancy invariant: all entries have bounded arity, and both the
stack length and the peak are bounded by 2 plus 4 entries per internal-node
step taken so far. -/
def PeakInv (c : PConfig) : Prop :=
  (∀ e, e ∈ entriesOf c → EntryArity e) ∧
  c.stack.length ≤ 2 + 4 * c.downSteps ∧
  c.peak ≤ 2 + 4 * c.downSteps

/-- Fold of the per-lane single-ray walker over an explicit lane list. -/
def foldLanes (active : Fin 4 → Bool) (tnearReg : Dist4) (rdirF : Fin 4 → Vec3)
    (n : BVH4Tree) (ls : List (Fin 4)) (r : Ray4) : Ray4 :=
  ls.foldl (fun acc i => if active i then walk1 i (tnearReg i) (rdirF i) n acc else acc) r

theorem foldSingle_eq_foldLanes (active : Fin 4 → Bool) (tnearReg : Dist4)
    (rdirF : Fin 4 → Vec3) (n : BVH4Tree) (r : Ray4) :
    foldSingle active tnearReg rdirF n r = foldLanes active tnearReg rdirF n (List.finRange 4) r := rfl

theorem foldLanes_cons (A : Fin 4 → Bool) (T : Dist4) (R : Fin 4 → Vec3) (n : BVH4Tree)
    (i : Fin 4) (ls : List (Fin 4)) (r : Ray4) :
    foldLanes A T R n (i :: ls) r =
      foldLanes A T R n ls (if A i then walk1 i (T i) (R i) n r else r) := rfl

theorem foldLanes_frame (A : Fin 4 → Bool) (T : Dist4) (R : Fin 4 → Vec3) (n : BVH4Tree) :
    ∀ (ls : List (Fin 4)) (r : Ray4),
      (foldLanes A T R n ls r).org = r.org ∧ (foldLanes A T R n ls r).dir = r.dir ∧
      (foldLanes A T R n ls r).time = r.time ∧ (foldLanes A T R n ls r).tnear = r.tnear ∧
      (foldLanes A T R n ls r).geomID = r.geomID ∧
      (∀ j, (foldLanes A T R n ls r).tfar j ≤ r.tfar j) ∧
      (∀ j, A j = false → (foldLanes A T R n ls r).tfar j = r.tfar j ∧
        (foldLanes A T R n ls r).attr j = r.attr j) ∧
      (∀ j, ¬(j ∈ ls) → (foldLanes A T R n ls r).tfar j = r.tfar j ∧
        (foldLanes A T R n ls r).attr j = r.attr j) := by
  intro ls
  induction ls with
  | nil =>
      intro r
      exact ⟨rfl, rfl, rfl, rfl, rfl, fun j => le_refl _, fun j _ => ⟨rfl, rfl⟩,
        fun j _ => ⟨rfl, rfl⟩⟩
  | cons i ls ih =>
      intro r
      rw [foldLanes_cons]
      by_cases hai : A i = true
      · rw [if_pos hai]
        obtain ⟨h1, h2, h3, h4, h5, h6, h7⟩ := walk1_FrameLe i (T i) (R i) n r
        obtain ⟨g1, g2, g3, g4, g5, g6, g7, g8⟩ := ih (walk1 i (T i) (R i) n r)
        refine ⟨g1.trans h1, g2.trans h2, g3.trans h3, g4.trans h4, g5.trans h5,
          fun j => ?_, fun j haj => ?_, fun j hj => ?_⟩
        · by_cases hij : j = i
          · subst hij
            exact le_trans (g6 j) h6
          · exact le_trans (g6 j) (le_of_eq (h7 j hij).1)
        · have hij : j ≠ i := by
            intro h
            subst h
            rw [hai] at haj
            cases haj
          obtain ⟨e1, e2⟩ := g7 j haj
          obtain ⟨f1, f2⟩ := h7 j hij
          exact ⟨e1.trans f1, e2.trans f2⟩
        · have hij : j ≠ i := fun h => hj (h ▸ List.mem_cons_self i ls)
          have hjls : ¬(j ∈ ls) := fun h => hj (List.mem_cons_of_mem _ h)
          obtain ⟨e1, e2⟩ := g8 j hjls
          obtain ⟨f1, f2⟩ := h7 j hij
          exact ⟨e1.trans f1, e2.trans f2⟩
      · rw [if_neg hai]
        obtain ⟨g1, g2, g3, g4, g5, g6, g7, g8⟩ := ih r
        exact ⟨g1, g2, g3, g4, g5, g6, g7,
          fun j hj => g8 j (fun h => hj (List.mem_cons_of_mem _ h))⟩

theorem foldLanes_lane_complete (A : Fin 4 → Bool) (T : Dist4) (R : Fin 4 → Vec3)
    (n : BVH4Tree) (j : Fin 4) (hact : A j = true) :
    ∀ ls : List (Fin 4), j ∈ ls → ls.Nodup →
      ∀ r : Ray4, wfT r.org R n = true → T j = r.tnear j →
        (foldLanes A T R n ls r).tfar j = windowMin (T j) (r.tfar j) (primsOf n) j := by
  intro ls
  induction ls with
  | nil => intro h; cases h
  | cons i ls ih =>
      intro hmem hnd r hwf htn
      rw [foldLanes_cons]
      by_cases hij : i = j
      · subst hij
        rw [if_pos hact]
        have hnotin : ¬(i ∈ ls) := (List.nodup_cons.mp hnd).1
        have hfr := (foldLanes_frame A T R n ls (walk1 i (T i) (R i) n r)).2.2.2.2.2.2.2
        rw [(hfr i hnotin).1]
        exact walk1_complete i (T i) (R i) n r R rfl hwf htn
      · have hmem2 : j ∈ ls := by
          rcases List.mem_cons.mp hmem with h | h
          · exact absurd h.symm hij
          · exact h
        have hnd2 : ls.Nodup := (List.nodup_cons.mp hnd).2
        by_cases hai : A i = true
        · rw [if_pos hai]
          obtain ⟨h1, _, _, h4, _, _, h7⟩ := walk1_FrameLe i (T i) (R i) n r
          have hw2 : wfT (walk1 i (T i) (R i) n r).org R n = true := by rw [h1]; exact hwf
          have ht2 : T j = (walk1 i (T i) (R i) n r).tnear j := by rw [h4]; exact htn
          rw [ih hmem2 hnd2 (walk1 i (T i) (R i) n r) hw2 ht2, (h7 j (fun h => hij h.symm)).1]
        · rw [if_neg hai]
          exact ih hmem2 hnd2 r hwf htn

theorem SoundLane_congr {r0 : Ray4} {all : List Prim} {r r2 : Ray4} {i : Fin 4}
    (h1 : r2.tfar i = r.tfar i) (h2 : r2.attr i = r.attr i)
    (hs : SoundLane r0 all r i) : SoundLane r0 all r2 i := by
  rw [SoundLane, h1, h2]
  exact hs

theorem foldLanes_sound (A : Fin 4 → Bool) (T : Dist4) (R : Fin 4 → Vec3)
    (n : BVH4Tree) (r0 : Ray4) (all : List Prim)
    (hsub : ∀ p, p ∈ primsOf n → p ∈ all) (i : Fin 4) :
    ∀ (ls : List (Fin 4)) (r : Ray4), r.tnear i = r0.tnear i → SoundLane r0 all r i →
      SoundLane r0 all (foldLanes A T R n ls r) i := by
  intro ls
  induction ls with
  | nil => exact fun r _ hs => hs
  | cons k ls ih =>
      intro r htn hs
      rw [foldLanes_cons]
      by_cases hak : A k = true
      · rw [if_pos hak]
        have hfr := walk1_FrameLe k (T k) (R k) n r
        have htn2 : (walk1 k (T k) (R k) n r).tnear i = r0.tnear i := by
          rw [hfr.2.2.2.1]
          exact htn
        refine ih (walk1 k (T k) (R k) n r) htn2 ?_
        by_cases hki : k = i
        · subst hki
          exact walk1_sound k (T k) (R k) n r r0 all hsub htn hs
        · obtain ⟨e1, e2⟩ := hfr.2.2.2.2.2.2 i (fun h => hki h.symm)
          exact SoundLane_congr e1 e2 hs
      · rw [if_neg hak]
        exact ih r htn hs

theorem mkIntersectConfig_base (valid : Fin 4 → Bool) (root : BVH4Tree) (r0 : Ray4) :
    BaseInv valid r0 (mkIntersectConfig valid root r0) := by
  refine ⟨rfl, rfl, rfl, rfl, rfl, rfl, rfl, fun i => le_refl _, fun i hv => ?_, fun i hv => ?_⟩
  · show (if valid i then r0.tfar i else ⊥) = r0.tfar i
    rw [if_pos hv]
  · refine ⟨?_, rfl, rfl⟩
    show (if valid i then r0.tfar i else ⊥) = ⊥
    rw [if_neg (by rw [hv]; exact Bool.false_ne_true)]

theorem pstep_base (thr : Nat) (valid : Fin 4 → Bool) (r0 : Ray4) (c : PConfig)
    (hb : BaseInv valid r0 c) : BaseInv valid r0 (stepConfig (pstep thr c)) := by
  obtain ⟨h1, h2, h3, h4, h5, h6, h7, h8, h9, h10⟩ := hb
  cases hm : c.mode with
  | pop =>
      cases hs : c.stack with
      | nil =>
          simp only [pstep, hm, hs, stepConfig]
          exact ⟨h1, h2, h3, h4, h5, h6, h7, h8, h9, h10⟩
      | cons e rest =>
          obtain ⟨n, d⟩ := e
          cases n with
          | invalid =>
              simp only [pstep, hm, hs, stepConfig]
              exact ⟨h1, h2, h3, h4, h5, h6, h7, h8, h9, h10⟩
          | tree u =>
              simp only [pstep, hm, hs]
              split
              · simp only [stepConfig]
                exact ⟨h1, h2, h3, h4, h5, h6, h7, h8, h9, h10⟩
              · split
                · simp only [stepConfig]
                  have hfr := foldLanes_frame (fun i => decide (d i < c.tfarReg i))
                    c.tnearReg c.rdir u (List.finRange 4) c.ray
                  obtain ⟨g1, g2, g3, g4, g5, g6, g7, _⟩ := hfr
                  rw [foldSingle_eq_foldLanes]
                  refine ⟨g1.trans h1, g2.trans h2, g3.trans h3, g4.trans h4, g5.trans h5,
                    h6, h7, fun i => le_trans (g6 i) (h8 i), fun i hv => ?_, fun i hv => ?_⟩
                  · show min (c.tfarReg i) _ = _
                    rw [h9 i hv]
                    exact min_eq_right (g6 i)
                  · obtain ⟨e1, e2, e3⟩ := h10 i hv
                    have hai : (fun i => decide (d i < c.tfarReg i)) i = false := by
                      simp [e1]
                    obtain ⟨f1, f2⟩ := g7 i hai
                    refine ⟨?_, f1.trans e2, f2.trans e3⟩
                    show min (c.tfarReg i) _ = ⊥
                    rw [e1]
                    exact min_eq_left bot_le
                · simp only [stepConfig]
                  exact ⟨h1, h2, h3, h4, h5, h6, h7, h8, h9, h10⟩
  | down cur curD =>
      cases cur with
      | invalid =>
          simp only [pstep, hm, stepConfig]
          exact ⟨h1, h2, h3, h4, h5, h6, h7, h8, h9, h10⟩
      | tree t =>
          cases t with
          | leaf prims =>
              simp only [pstep, hm, stepConfig]
              obtain ⟨g1, g2, g3, g4, g5⟩ :=
                primIntersect_frame (fun i => decide (curD i < c.tfarReg i)) prims c.ray
              refine ⟨g1.trans h1, g2.trans h2, g3.trans h3, g4.trans h4, g5.trans h5,
                h6, h7,
                fun i => le_trans (primIntersect_tfar_le _ prims i c.ray) (h8 i),
                fun i hv => ?_, fun i hv => ?_⟩
              · show (if decide (curD i < c.tfarReg i) = true then
                      (primIntersect (fun j => decide (curD j < c.tfarReg j)) c.ray prims).tfar i
                    else c.tfarReg i) =
                    (primIntersect (fun j => decide (curD j < c.tfarReg j)) c.ray prims).tfar i
                by_cases hvl : decide (curD i < c.tfarReg i) = true
                · rw [if_pos hvl]
                · rw [if_neg hvl]
                  have hvl2 : (fun j => decide (curD j < c.tfarReg j)) i = false := by
                    simp only []
                    exact Bool.not_eq_true _ ▸ eq_false_of_ne_true hvl
                  obtain ⟨f1, _⟩ :=
                    primIntersect_inactive (fun j => decide (curD j < c.tfarReg j)) prims i hvl2 c.ray
                  rw [f1]
                  exact h9 i hv
              · obtain ⟨e1, e2, e3⟩ := h10 i hv
                have hvl2 : (fun j => decide (curD j < c.tfarReg j)) i = false := by
                  simp only []
                  rw [e1]
                  simp
                obtain ⟨f1, f2⟩ :=
                  primIntersect_inactive (fun j => decide (curD j < c.tfarReg j)) prims i hvl2 c.ray
                refine ⟨?_, f1.trans e2, f2.trans e3⟩
                show (if decide (curD i < c.tfarReg i) = true then
                    (primIntersect (fun j => decide (curD j < c.tfarReg j)) c.ray prims).tfar i
                  else c.tfarReg i) = ⊥
                rw [if_neg (by rw [e1]; simp), e1]
          | node ch =>
              simp only [pstep, hm]
              split
              · simp only [stepConfig]
                exact ⟨h1, h2, h3, h4, h5, h6, h7, h8, h9, h10⟩
              · simp only [stepConfig]
                exact ⟨h1, h2, h3, h4, h5, h6, h7, h8, h9, h10⟩

theorem prun_base (thr : Nat) (valid : Fin 4 → Bool) (r0 : Ray4) :
    ∀ (fuel : Nat) (c : PConfig), BaseInv valid r0 c →
      ∀ c2, prun thr fuel c = some c2 → BaseInv valid r0 c2 := by
  intro fuel
  induction fuel with
  | zero => intro c _ c2 h; cases h
  | succ fuel ih =>
      intro c hb c2 hrun
      rw [prun] at hrun
      cases hp : pstep thr c with
      | fin cf =>
          rw [hp] at hrun
          have := pstep_base thr valid r0 c hb
          rw [hp] at this
          cases hrun
          exact this
      | cont cc =>
          rw [hp] at hrun
          have := pstep_base thr valid r0 c hb
          rw [hp] at this
          exact ih cc this c2 hrun

theorem arity4T_node (ch : List (AABB × BVH4Tree)) (h : arity4T (.node ch) = true) :
    ch.length ≤ 4 ∧ ∀ c, c ∈ ch → arity4T c.2 = true := by
  rw [arity4T, Bool.and_eq_true, decide_eq_true_eq] at h
  refine ⟨h.1, ?_⟩
  have h2 := h.2
  clear h
  induction ch with
  | nil => intro c hc; cases hc
  | cons a as ih =>
      rw [arity4L, Bool.and_eq_true] at h2
      intro c hc
      rcases List.mem_cons.mp hc with rfl | hc2
      · exact h2.1
      · exact ih h2.2 c hc2

theorem childStep_len (org rdir : Fin 4 → Vec3) (tnearReg tfarReg : Dist4)
    (acc : DownAcc) (c : AABB × BVH4Tree) :
    (childStep org rdir tnearReg tfarReg acc c).stack.length ≤ acc.stack.length + 1 := by
  simp only [childStep]
  split
  · split
    · simp
    · simp
  · omega

theorem processChildren_len (org rdir : Fin 4 → Vec3) (tnearReg tfarReg : Dist4) :
    ∀ (ch : List (AABB × BVH4Tree)) (acc : DownAcc),
      (processChildren org rdir tnearReg tfarReg ch acc).stack.length ≤
        acc.stack.length + ch.length := by
  intro ch
  induction ch with
  | nil => intro acc; exact le_refl _
  | cons c cs ih =>
      intro acc
      have h1 := childStep_len org rdir tnearReg tfarReg acc c
      have h2 := ih (childStep org rdir tnearReg tfarReg acc c)
      show (processChildren org rdir tnearReg tfarReg cs
        (childStep org rdir tnearReg tfarReg acc c)).stack.length ≤ _
      simp only [List.length_cons]
      omega

theorem childStep_arity (org rdir : Fin 4 → Vec3) (tnearReg tfarReg : Dist4)
    (acc : DownAcc) (c : AABB × BVH4Tree) (hc : arity4T c.2 = true)
    (hstk : ∀ e, e ∈ acc.stack → EntryArity e) (hcur : EntryArity (acc.cur, acc.curDist)) :
    (∀ e, e ∈ (childStep org rdir tnearReg tfarReg acc c).stack → EntryArity e) ∧
      EntryArity ((childStep org rdir tnearReg tfarReg acc c).cur,
        (childStep org rdir tnearReg tfarReg acc c).curDist) := by
  simp only [childStep]
  split
  · split
    · refine ⟨?_, Or.inr ⟨c.2, rfl, hc⟩⟩
      intro e he
      rcases List.mem_cons.mp he with rfl | he2
      · exact hcur
      · exact hstk e he2
    · refine ⟨?_, hcur⟩
      intro e he
      rcases List.mem_cons.mp he with rfl | he2
      · exact Or.inr ⟨c.2, rfl, hc⟩
      · exact hstk e he2
  · exact ⟨hstk, hcur⟩

theorem processChildren_arity (org rdir : Fin 4 → Vec3) (tnearReg tfarReg : Dist4) :
    ∀ (ch : List (AABB × BVH4Tree)) (acc : DownAcc),
      (∀ c, c ∈ ch → arity4T c.2 = true) →
      (∀ e, e ∈ acc.stack → EntryArity e) → EntryArity (acc.cur, acc.curDist) →
      (∀ e, e ∈ (processChildren org rdir tnearReg tfarReg ch acc).stack → EntryArity e) ∧
        EntryArity ((processChildren org rdir tnearReg tfarReg ch acc).cur,
          (processChildren org rdir tnearReg tfarReg ch acc).curDist) := by
  intro ch
  induction ch with
  | nil => intro acc _ hstk hcur; exact ⟨hstk, hcur⟩
  | cons c cs ih =>
      intro acc hch hstk hcur
      obtain ⟨g1, g2⟩ := childStep_arity org rdir tnearReg tfarReg acc c
        (hch c (List.mem_cons_self c cs)) hstk hcur
      exact ih (childStep org rdir tnearReg tfarReg acc c)
        (fun q hq => hch q (List.mem_cons_of_mem _ hq)) g1 g2

theorem mkIntersectConfig_peak (valid : Fin 4 → Bool) (root : BVH4Tree) (r0 : Ray4)
    (har : arity4T root = true) : PeakInv (mkIntersectConfig valid root r0) := by
  refine ⟨?_, ?_, ?_⟩
  · intro e he
    simp only [entriesOf, mkIntersectConfig] at he
    rcases List.mem_cons.mp he with rfl | he2
    · exact Or.inr ⟨root, rfl, har⟩
    · rcases List.mem_cons.mp he2 with rfl | he3
      · exact Or.inl rfl
      · cases he3
  · simp [mkIntersectConfig]
  · simp [mkIntersectConfig]

theorem pstep_peak (thr : Nat) (c : PConfig) (hp : PeakInv c) :
    PeakInv (stepConfig (pstep thr c)) := by
  obtain ⟨hA, hL, hP⟩ := hp
  cases hm : c.mode with
  | pop =>
      simp only [entriesOf, hm] at hA
      cases hs : c.stack with
      | nil =>
          rw [hs] at hA hL
          simp only [pstep, hm, hs, stepConfig]
          exact ⟨by simp only [entriesOf, hm]; rw [hs]; exact hA, by rw [hs]; exact hL, hP⟩
      | cons e rest =>
          rw [hs] at hA hL
          simp only [List.length_cons] at hL
          have hArest : ∀ x, x ∈ rest → EntryArity x :=
            fun x hx => hA x (List.mem_cons_of_mem _ hx)
          have hLrest : rest.length ≤ 2 + 4 * c.downSteps := by omega
          obtain ⟨n, d⟩ := e
          cases n with
          | invalid =>
              simp only [pstep, hm, hs, stepConfig]
              exact ⟨by simp only [entriesOf]; exact hArest, hLrest, hP⟩
          | tree u =>
              simp only [pstep, hm, hs]
              split
              · simp only [stepConfig]
                exact ⟨by simp only [entriesOf]; exact hArest, hLrest, hP⟩
              · split
                · simp only [stepConfig]
                  exact ⟨by simp only [entriesOf]; exact hArest, hLrest, hP⟩
                · simp only [stepConfig]
                  refine ⟨?_, hLrest, hP⟩
                  simp only [entriesOf]
                  intro x hx
                  rcases List.mem_cons.mp hx with rfl | hx2
                  · exact hA _ (List.mem_cons_self _ _)
                  · exact hArest x hx2
  | down cur curD =>
      simp only [entriesOf, hm] at hA
      cases cur with
      | invalid =>
          simp only [pstep, hm, stepConfig]
          refine ⟨?_, hL, hP⟩
          simp only [entriesOf, hm]
          exact hA
      | tree t =>
          cases t with
          | leaf prims =>
              simp only [pstep, hm, stepConfig]
              refine ⟨?_, hL, hP⟩
              simp only [entriesOf]
              intro x hx
              exact hA x (List.mem_cons_of_mem _ hx)
          | node ch =>
              have hcur : EntryArity (NRef.tree (BVH4Tree.node ch), curD) :=
                hA _ (List.mem_cons_self _ _)
              have harch : arity4T (BVH4Tree.node ch) = true := by
                rcases hcur with h | ⟨w, hw, haw⟩
                · cases h
                · rw [NRef.tree.injEq] at hw
                  rw [hw]
                  exact haw
              obtain ⟨hlen4, hch⟩ := arity4T_node ch harch
              have hstk : ∀ x, x ∈ c.stack → EntryArity x :=
                fun x hx => hA x (List.mem_cons_of_mem _ hx)
              simp only [pstep, hm]
              cases hs : c.stack with
              | nil =>
                  simp only [specPop]
                  have hpc := processChildren_len c.ray.org c.rdir c.tnearReg c.tfarReg ch
                    ⟨NRef.invalid, fun _ => ⊤, []⟩
                  simp only [List.length_nil] at hpc
                  have hpa := processChildren_arity c.ray.org c.rdir c.tnearReg c.tfarReg ch
                    ⟨NRef.invalid, fun _ => ⊤, []⟩ hch (fun x hx => by cases hx) (Or.inl rfl)
                  obtain ⟨pc, pd, ps, hgen⟩ : ∃ pc pd ps,
                      processChildren c.ray.org c.rdir c.tnearReg c.tfarReg ch
                        ⟨NRef.invalid, fun _ => ⊤, []⟩ = ⟨pc, pd, ps⟩ := ⟨_, _, _, rfl⟩
                  simp only [hgen] at hpc hpa ⊢
                  split
                  · simp only [stepConfig]
                    refine ⟨?_, ?_, ?_⟩
                    · simp only [entriesOf]
                      intro x hx
                      rcases List.mem_cons.mp hx with rfl | hx2
                      · exact hpa.2
                      · exact hpa.1 x hx2
                    · show ((pc, pd) :: ps).length ≤ 2 + 4 * (c.downSteps + 1)
                      simp only [List.length_cons]
                      have hps : ps.length ≤ 0 + ch.length := hpc
                      omega
                    · show c.peak ⊔ (ps.length + 1) ≤ 2 + 4 * (c.downSteps + 1)
                      have hps : ps.length ≤ 0 + ch.length := hpc
                      refine max_le (by omega) (by omega)
                  · simp only [stepConfig]
                    refine ⟨?_, ?_, ?_⟩
                    · simp only [entriesOf]
                      intro x hx
                      rcases List.mem_cons.mp hx with rfl | hx2
                      · exact hpa.2
                      · exact hpa.1 x hx2
                    · show ps.length ≤ 2 + 4 * (c.downSteps + 1)
                      have hps : ps.length ≤ 0 + ch.length := hpc
                      omega
                    · show c.peak ⊔ ps.length ≤ 2 + 4 * (c.downSteps + 1)
                      have hps : ps.length ≤ 0 + ch.length := hpc
                      refine max_le (by omega) (by omega)
              | cons e rest =>
                  rw [hs] at hL hstk
                  have hcure : EntryArity e := hstk e (List.mem_cons_self _ _)
                  have hrest : ∀ x, x ∈ rest → EntryArity x :=
                    fun x hx => hstk x (List.mem_cons_of_mem _ hx)
                  simp only [specPop, List.length_cons] at hL ⊢
                  have hpc := processChildren_len c.ray.org c.rdir c.tnearReg c.tfarReg ch
                    ⟨e.1, e.2, rest⟩
                  have hpa := processChildren_arity c.ray.org c.rdir c.tnearReg c.tfarReg ch
                    ⟨e.1, e.2, rest⟩ hch hrest hcure
                  obtain ⟨pc, pd, ps, hgen⟩ : ∃ pc pd ps,
                      processChildren c.ray.org c.rdir c.tnearReg c.tfarReg ch
                        ⟨e.1, e.2, rest⟩ = ⟨pc, pd, ps⟩ := ⟨_, _, _, rfl⟩
                  simp only [hgen] at hpc hpa ⊢
                  split
                  · simp only [stepConfig]
                    refine ⟨?_, ?_, ?_⟩
                    · simp only [entriesOf]
                      intro x hx
                      rcases List.mem_cons.mp hx with rfl | hx2
                      · exact hpa.2
                      · exact hpa.1 x hx2
                    · show ((pc, pd) :: ps).length ≤ 2 + 4 * (c.downSteps + 1)
                      simp only [List.length_cons]
                      have hps : ps.length ≤ rest.length + ch.length := hpc
                      omega
                    · show c.peak ⊔ (ps.length + 1) ≤ 2 + 4 * (c.downSteps + 1)
                      have hps : ps.length ≤ rest.length + ch.length := hpc
                      refine max_le (by omega) (by omega)
                  · simp only [stepConfig]
                    refine ⟨?_, ?_, ?_⟩
                    · simp only [entriesOf]
                      intro x hx
                      rcases List.mem_cons.mp hx with rfl | hx2
                      · exact hpa.2
                      · exact hpa.1 x hx2
                    · show ps.length ≤ 2 + 4 * (c.downSteps + 1)
                      have hps : ps.length ≤ rest.length + ch.length := hpc
                      omega
                    · show c.peak ⊔ ps.length ≤ 2 + 4 * (c.downSteps + 1)
                      have hps : ps.length ≤ rest.length + ch.length := hpc
                      refine max_le (by omega) (by omega)

theorem prun_peak (thr : Nat) :
    ∀ (fuel : Nat) (c : PConfig), PeakInv c →
      ∀ c2, prun thr fuel c = some c2 → PeakInv c2 := by
  intro fuel
  induction fuel with
  | zero => intro c _ c2 h; cases h
  | succ fuel ih =>
      intro c hb c2 hrun
      rw [prun] at hrun
      cases hp : pstep thr c with
      | fin cf =>
          rw [hp] at hrun
          have h2 := pstep_peak thr c hb
          rw [hp] at h2
          cases hrun
          exact h2
      | cont cc =>
          rw [hp] at hrun
          have h2 := pstep_peak thr c hb
          rw [hp] at h2
          exact ih cc h2 c2 hrun

theorem anyLane_eq_false_iff (f : Fin 4 → Bool) : anyLane f = false ↔ ∀ i, f i = false := by
  constructor
  · intro h i
    rw [anyLane] at h
    simp only [Bool.or_eq_false_iff] at h
    fin_cases i
    · exact h.1.1.1
    · exact h.1.1.2
    · exact h.1.2
    · exact h.2
  · intro h
    rw [anyLane, h 0, h 1, h 2, h 3]
    rfl

theorem anyLane_eq_true_iff (f : Fin 4 → Bool) : anyLane f = true ↔ ∃ i, f i = true := by
  constructor
  · intro h
    rw [anyLane] at h
    simp only [Bool.or_eq_true] at h
    rcases h with ((h | h) | h) | h
    exacts [⟨0, h⟩, ⟨1, h⟩, ⟨2, h⟩, ⟨3, h⟩]
  · rintro ⟨i, hi⟩
    rw [anyLane]
    fin_cases i <;> simp_all

/-- Slab-hit from a primitive inside a closed window: the box of a subtree
containing a primitive at a distance within `[tn, tf]` passes the slab test
against that window. -/
theorem slabHit_of_window_le (org rdir : Vec3) (box : AABB) (t : ℚ) (tn tf : XRat)
    (hn : slabNearQ org rdir box ≤ t) (hf : t ≤ slabFarQ org rdir box)
    (h1 : tn ≤ XRat.q t) (h2 : XRat.q t ≤ tf) :
    slabHit tn tf (slabNearQ org rdir box) (slabFarQ org rdir box) = true := by
  rw [slabHit, decide_eq_true_eq]
  exact le_trans (max_le (XRat.q_le_q.mpr hn) h1) (le_min (XRat.q_le_q.mpr hf) h2)

/-- A sound lane's committed `tfar` never falls below the lane's global
closest-hit distance. -/
theorem laneMin_le_of_sound (root : BVH4Tree) (r0 : Ray4) (r : Ray4) (i : Fin 4)
    (hs : SoundLane r0 (primsOf root) r i) : laneMin root r0 i ≤ r.tfar i := by
  obtain ⟨hle, hor⟩ := hs
  rcases hor with ⟨h1, _⟩ | ⟨p, hp, ⟨hw1, hw2⟩, h3, _⟩
  · rw [laneMin, h1]
    exact windowMin_le_init _ _ _ _
  · rw [laneMin, ← h3]
    exact windowMin_le_mem _ _ i p hp hw1 _ hw2

/-- Membership in `primsOfL`, downward: every stored primitive lies below
some child of the list. -/
theorem mem_primsOfL (p : Prim) :
    ∀ ch : List (AABB × BVH4Tree), p ∈ primsOfL ch → ∃ c, c ∈ ch ∧ p ∈ primsOf c.2 := by
  intro ch
  induction ch with
  | nil => intro h; cases h
  | cons a as ih =>
      intro h
      rw [primsOfL, List.mem_append] at h
      rcases h with h | h
      · exact ⟨a, List.mem_cons_self a as, h⟩
      · obtain ⟨c, hc, hp⟩ := ih h
        exact ⟨c, List.mem_cons_of_mem _ hc, hp⟩

/-- An entry owned by the child-loop accumulator: the register pair or a
stack entry. -/
def accMem (e : StackE) (acc : DownAcc) : Prop :=
  e = (acc.cur, acc.curDist) ∨ e ∈ acc.stack

theorem childStep_accMem (org rdir : Fin 4 → Vec3) (tnearReg tfarReg : Dist4)
    (acc : DownAcc) (c : AABB × BVH4Tree) (e : StackE) (h : accMem e acc) :
    accMem e (childStep org rdir tnearReg tfarReg acc c) := by
  rw [accMem] at h
  rw [accMem]
  simp only [childStep]
  split
  · split
    · rcases h with h | h
      · exact Or.inr (List.mem_cons.mpr (Or.inl h))
      · exact Or.inr (List.mem_cons_of_mem _ h)
    · rcases h with h | h
      · exact Or.inl h
      · exact Or.inr (List.mem_cons_of_mem _ h)
  · rcases h with h | h
    · exact Or.inl h
    · exact Or.inr h

theorem processChildren_accMem (org rdir : Fin 4 → Vec3) (tnearReg tfarReg : Dist4) :
    ∀ (ch : List (AABB × BVH4Tree)) (acc : DownAcc) (e : StackE), accMem e acc →
      accMem e (processChildren org rdir tnearReg tfarReg ch acc) := by
  intro ch
  induction ch with
  | nil => exact fun acc e h => h
  | cons c cs ih =>
      intro acc e h
      show accMem e (processChildren org rdir tnearReg tfarReg cs
        (childStep org rdir tnearReg tfarReg acc c))
      exact ih _ e (childStep_accMem org rdir tnearReg tfarReg acc c e h)

/-- When some lane passes the slab test of child `c`, the child joins the
accumulator (in the register or on its stack) with its per-lane entry
distances: the unclamped slab entry where the lane hits, `+inf` where it
misses. -/
theorem childStep_hit_mem (org rdir : Fin 4 → Vec3) (tnearReg tfarReg : Dist4)
    (acc : DownAcc) (c : AABB × BVH4Tree) (i : Fin 4)
    (hi : slabHit (tnearReg i) (tfarReg i) (slabNearQ (org i) (rdir i) c.1)
      (slabFarQ (org i) (rdir i) c.1) = true) :
    ∃ D : Dist4, D i = XRat.q (slabNearQ (org i) (rdir i) c.1) ∧
      accMem (NRef.tree c.2, D) (childStep org rdir tnearReg tfarReg acc c) := by
  refine ⟨fun j => if slabHit (tnearReg j) (tfarReg j) (slabNearQ (org j) (rdir j) c.1)
      (slabFarQ (org j) (rdir j) c.1) then XRat.q (slabNearQ (org j) (rdir j) c.1) else ⊤,
    by simp [hi], ?_⟩
  rw [accMem]
  simp only [childStep]
  rw [if_pos ((anyLane_eq_true_iff _).mpr ⟨i, hi⟩)]
  split
  · exact Or.inl rfl
  · exact Or.inr (List.mem_cons_self _ _)

/-- Down the whole children loop: a child hit by lane `i` ends up in the
accumulator with an entry-distance vector whose lane-`i` component is the
child's unclamped slab entry distance. -/
theorem processChildren_pending (org rdir : Fin 4 → Vec3) (tnearReg tfarReg : Dist4)
    (i : Fin 4) :
    ∀ (ch : List (AABB × BVH4Tree)) (acc : DownAcc) (box : AABB) (sub : BVH4Tree),
      (box, sub) ∈ ch →
      slabHit (tnearReg i) (tfarReg i) (slabNearQ (org i) (rdir i) box)
        (slabFarQ (org i) (rdir i) box) = true →
      ∃ D : Dist4, D i = XRat.q (slabNearQ (org i) (rdir i) box) ∧
        accMem (NRef.tree sub, D) (processChildren org rdir tnearReg tfarReg ch acc) := by
  intro ch
  induction ch with
  | nil => intro acc box sub h _; cases h
  | cons c cs ih =>
      intro acc box sub hmem hhit
      rcases List.mem_cons.mp hmem with heq | hmem2
      · subst heq
        obtain ⟨D, hD, hacc⟩ :=
          childStep_hit_mem org rdir tnearReg tfarReg acc (box, sub) i hhit
        exact ⟨D, hD, processChildren_accMem org rdir tnearReg tfarReg cs
          (childStep org rdir tnearReg tfarReg acc (box, sub)) _ hacc⟩
      · show ∃ D : Dist4, _ ∧ accMem (NRef.tree sub, D)
          (processChildren org rdir tnearReg tfarReg cs
            (childStep org rdir tnearReg tfarReg acc c))
        exact ih (childStep org rdir tnearReg tfarReg acc c) box sub hmem2 hhit

/-- Sentinel discipline of the child-loop accumulator: either a real node sits
in the register and the sentinel closes the stack, or the loop still runs on
the speculatively popped sentinel (invalid register at distance `+inf`, empty
stack). -/
def KbAcc (acc : DownAcc) : Prop :=
  (acc.cur ≠ NRef.invalid ∧
    ∃ bs, acc.stack = bs ++ [sentE] ∧ ∀ e, e ∈ bs → e.1 ≠ NRef.invalid) ∨
  (acc.cur = NRef.invalid ∧ acc.curDist = (fun _ => (⊤ : XRat)) ∧ acc.stack = [])

theorem childStep_kb (org rdir : Fin 4 → Vec3) (tnearReg tfarReg : Dist4)
    (acc : DownAcc) (c : AABB × BVH4Tree) (h : KbAcc acc) :
    KbAcc (childStep org rdir tnearReg tfarReg acc c) := by
  rw [KbAcc] at h
  rw [KbAcc]
  simp only [childStep]
  split
  next hhit =>
    split
    next hlt =>
      left
      refine ⟨fun hc => NRef.noConfusion hc, ?_⟩
      rcases h with ⟨hcur, bs, hstk, hfree⟩ | ⟨hcur, hcd, hstk⟩
      · refine ⟨(acc.cur, acc.curDist) :: bs, by simp [hstk], fun e he => ?_⟩
        rcases List.mem_cons.mp he with rfl | he2
        · exact hcur
        · exact hfree e he2
      · refine ⟨[], ?_, fun e he => absurd he (List.not_mem_nil e)⟩
        rw [hstk, hcur, hcd]
        rfl
    next hlt =>
      rcases h with ⟨hcur, bs, hstk, hfree⟩ | ⟨hcur, hcd, hstk⟩
      · left
        refine ⟨hcur, (NRef.tree c.2, fun i =>
          if slabHit (tnearReg i) (tfarReg i) (slabNearQ (org i) (rdir i) c.1)
              (slabFarQ (org i) (rdir i) c.1) = true
          then XRat.q (slabNearQ (org i) (rdir i) c.1) else ⊤) :: bs,
          by simp [hstk], fun e he => ?_⟩
        rcases List.mem_cons.mp he with rfl | he2
        · exact fun hc => NRef.noConfusion hc
        · exact hfree e he2
      · exfalso
        obtain ⟨i, hi⟩ := (anyLane_eq_true_iff _).mp hhit
        apply hlt
        refine (anyLane_eq_true_iff _).mpr ⟨i, ?_⟩
        simp [hi, hcd, XRat.q_lt_top]
  next => exact h

theorem processChildren_kb (org rdir : Fin 4 → Vec3) (tnearReg tfarReg : Dist4) :
    ∀ (ch : List (AABB × BVH4Tree)) (acc : DownAcc), KbAcc acc →
      KbAcc (processChildren org rdir tnearReg tfarReg ch acc) := by
  intro ch
  induction ch with
  | nil => exact fun acc h => h
  | cons c cs ih =>
      intro acc h
      show KbAcc (processChildren org rdir tnearReg tfarReg cs
        (childStep org rdir tnearReg tfarReg acc c))
      exact ih _ (childStep_kb org rdir tnearReg tfarReg acc c h)

/-- The sentinel discipline of the accumulator yields the stack-list form of
the invariant once the register is pushed back on top. -/
theorem KbAcc_entries (acc : DownAcc) (h : KbAcc acc) :
    KbList ((acc.cur, acc.curDist) :: acc.stack) := by
  rcases h with ⟨hcur, bs, hstk, hfree⟩ | ⟨hcur, hcd, hstk⟩
  · refine ⟨(acc.cur, acc.curDist) :: bs, by simp [hstk], fun e he => ?_⟩
    rcases List.mem_cons.mp he with rfl | he2
    · exact hcur
    · exact hfree e he2
  · refine ⟨[], ?_, fun e he => absurd he (List.not_mem_nil e)⟩
    rw [hstk, hcur, hcd]
    rfl

theorem childStep_wf (root : BVH4Tree) (org0 rdirF : Fin 4 → Vec3)
    (org rdir : Fin 4 → Vec3) (tnearReg tfarReg : Dist4)
    (acc : DownAcc) (c : AABB × BVH4Tree)
    (hc : wfT org0 rdirF c.2 = true ∧ ∀ p, p ∈ primsOf c.2 → p ∈ primsOf root)
    (hstk : ∀ e, e ∈ acc.stack → EntryWf root org0 rdirF e)
    (hcur : EntryWf root org0 rdirF (acc.cur, acc.curDist)) :
    (∀ e, e ∈ (childStep org rdir tnearReg tfarReg acc c).stack →
        EntryWf root org0 rdirF e) ∧
      EntryWf root org0 rdirF ((childStep org rdir tnearReg tfarReg acc c).cur,
        (childStep org rdir tnearReg tfarReg acc c).curDist) := by
  simp only [childStep]
  split
  · split
    · refine ⟨?_, Or.inr ⟨c.2, rfl, hc.1, hc.2⟩⟩
      intro e he
      rcases List.mem_cons.mp he with rfl | he2
      · exact hcur
      · exact hstk e he2
    · refine ⟨?_, hcur⟩
      intro e he
      rcases List.mem_cons.mp he with rfl | he2
      · exact Or.inr ⟨c.2, rfl, hc.1, hc.2⟩
      · exact hstk e he2
  · exact ⟨hstk, hcur⟩

theorem processChildren_wf (root : BVH4Tree) (org0 rdirF : Fin 4 → Vec3)
    (org rdir : Fin 4 → Vec3) (tnearReg tfarReg : Dist4) :
    ∀ (ch : List (AABB × BVH4Tree)) (acc : DownAcc),
      (∀ c, c ∈ ch → wfT org0 rdirF c.2 = true ∧ ∀ p, p ∈ primsOf c.2 → p ∈ primsOf root) →
      (∀ e, e ∈ acc.stack → EntryWf root org0 rdirF e) →
      EntryWf root org0 rdirF (acc.cur, acc.curDist) →
      (∀ e, e ∈ (processChildren org rdir tnearReg tfarReg ch acc).stack →
          EntryWf root org0 rdirF e) ∧
        EntryWf root org0 rdirF ((processChildren org rdir tnearReg tfarReg ch acc).cur,
          (processChildren org rdir tnearReg tfarReg ch acc).curDist) := by
  intro ch
  induction ch with
  | nil => intro acc _ hstk hcur; exact ⟨hstk, hcur⟩
  | cons c cs ih =>
      intro acc hch hstk hcur
      obtain ⟨g1, g2⟩ := childStep_wf root org0 rdirF org rdir tnearReg tfarReg acc c
        (hch c (List.mem_cons_self c cs)) hstk hcur
      exact ih (childStep org rdir tnearReg tfarReg acc c)
        (fun q hq => hch q (List.mem_cons_of_mem _ hq)) g1 g2

theorem KbList_tail (u : BVH4Tree) (d : Dist4) (rest : List StackE)
    (h : KbList ((NRef.tree u, d) :: rest)) : KbList rest := by
  obtain ⟨bs, hbs, hfree⟩ := h
  cases bs with
  | nil =>
      exfalso
      simp only [List.nil_append] at hbs
      injection hbs with h1 h2
      injection h1 with h11 h12
      exact NRef.noConfusion h11
  | cons b bs2 =>
      rw [List.cons_append] at hbs
      injection hbs with h1 h2
      exact ⟨bs2, h2, fun e he => hfree e (List.mem_cons_of_mem _ he)⟩

theorem KbList_invalid_head (dv : Dist4) (rest : List StackE)
    (h : KbList ((NRef.invalid, dv) :: rest)) : rest = [] := by
  obtain ⟨bs, hbs, hfree⟩ := h
  cases bs with
  | nil =>
      simp only [List.nil_append] at hbs
      exact congrArg List.tail hbs
  | cons b bs2 =>
      rw [List.cons_append] at hbs
      injection hbs with h1 h2
      exact absurd (h1 ▸ rfl) (hfree b (List.mem_cons_self b bs2))

/-- What the closest-hit walker's final configuration satisfies: the base
invariant, and each valid lane's register holds the lane's global closest-hit
distance with a sound committed hit payload. -/
def FinalMin (valid : Fin 4 → Bool) (root : BVH4Tree) (r0 : Ray4) (c : PConfig) : Prop :=
  BaseInv valid r0 c ∧
  (∀ i, valid i = true → SoundLane r0 (primsOf root) c.ray i) ∧
  (∀ i, valid i = true → c.tfarReg i = laneMin root r0 i)

theorem pstep_comp_pop (thr : Nat) (valid : Fin 4 → Bool) (root : BVH4Tree) (r0 : Ray4)
    (c : PConfig) (hc : CompInv valid root r0 c) (hm : c.mode = PMode.pop) :
    (∀ c2, pstep thr c = .cont c2 → CompInv valid root r0 c2) ∧
    (∀ c2, pstep thr c = .fin c2 → FinalMin valid root r0 c2) := by
  obtain ⟨hB, hkb, hwfE, hsound, hmin⟩ := hc
  have hstep := pstep_base thr valid r0 c hB
  simp only [entriesOf, hm] at hkb hwfE hmin
  cases hs : c.stack with
  | nil =>
      exfalso
      rw [hs] at hkb
      obtain ⟨bs, hbs, -⟩ := hkb
      exact absurd hbs (by simp)
  | cons e rest =>
      rw [hs] at hkb hwfE hmin
      obtain ⟨n, d⟩ := e
      cases n with
      | invalid =>
          have hrest : rest = [] := KbList_invalid_head d rest hkb
          subst hrest
          refine ⟨fun c2 hcont => ?_, fun c2 hfin => ?_⟩
          · simp only [pstep, hm, hs] at hcont
            exact StepRes.noConfusion hcont
          · simp only [pstep, hm, hs] at hfin
            cases hfin
            refine ⟨hB, fun i hv => hsound i hv, fun i hv => ?_⟩
            rcases (hmin i hv).2 with heq | ⟨e, he, hpend⟩
            · exact heq
            · exfalso
              rcases List.mem_cons.mp he with rfl | he2
              · obtain ⟨u, hu, -⟩ := hpend
                exact NRef.noConfusion hu
              · cases he2
      | tree u =>
          have hwfhead := hwfE (NRef.tree u, d) (List.mem_cons_self _ _)
          have hwfu : wfT r0.org (fun i => rcpSafeVec (r0.dir i)) u = true ∧
              ∀ p, p ∈ primsOf u → p ∈ primsOf root := by
            rcases hwfhead with h | ⟨u2, hu2, h1, h2⟩
            · exact absurd h (fun hh => NRef.noConfusion hh)
            · have hx : NRef.tree u = NRef.tree u2 := hu2
              injection hx with hx2
              rw [← hx2] at h1 h2
              exact ⟨h1, h2⟩
          refine ⟨fun c2 hcont => ?_, fun c2 hfin => ?_⟩
          · simp only [pstep, hm, hs] at hcont hstep
            split at hcont
            next hcull =>
              cases hcont
              rw [if_pos hcull] at hstep
              simp only [stepConfig] at hstep
              refine ⟨hstep, ?_, ?_, fun i hv => hsound i hv, ?_⟩
              · simp only [entriesOf, hm]
                exact KbList_tail u d rest hkb
              · simp only [entriesOf, hm]
                intro e he
                exact hwfE e (List.mem_cons_of_mem _ he)
              · intro i hv
                refine ⟨(hmin i hv).1, ?_⟩
                rcases (hmin i hv).2 with heq | ⟨e, he, hpend⟩
                · exact Or.inl heq
                · rcases List.mem_cons.mp he with rfl | he2
                  · left
                    obtain ⟨u2, hu2, p, hp, hw, hpmin, hdle⟩ := hpend
                    have hdle2 : d i ≤ primT p i := hdle
                    have hall := (anyLane_eq_false_iff _).mp hcull i
                    have hnlt : ¬ (d i < c.tfarReg i) := by simpa using hall
                    exact le_antisymm
                      ((le_of_not_lt hnlt).trans (hdle2.trans (le_of_eq hpmin)))
                      (hmin i hv).1
                  · refine Or.inr ⟨e, ?_, hpend⟩
                    simp only [entriesOf, hm]
                    exact he2
            next hncull =>
              split at hcont
              next hswitch =>
                cases hcont
                rw [if_neg hncull, if_pos hswitch] at hstep
                simp only [stepConfig] at hstep
                obtain ⟨R, hR⟩ : ∃ R, foldSingle (fun i => decide (d i < c.tfarReg i))
                    c.tnearReg c.rdir u c.ray = R := ⟨_, rfl⟩
                rw [hR] at hstep ⊢
                have hsound2 : ∀ i, valid i = true → SoundLane r0 (primsOf root) R i := by
                  intro i hv
                  rw [← hR, foldSingle_eq_foldLanes]
                  exact foldLanes_sound (fun j => decide (d j < c.tfarReg j)) c.tnearReg
                    c.rdir u r0 (primsOf root) hwfu.2 i (List.finRange 4) c.ray
                    (congrFun hB.2.2.2.1 i) (hsound i hv)
                have hlam : ∀ i, valid i = true → laneMin root r0 i ≤ R.tfar i :=
                  fun i hv => laneMin_le_of_sound root r0 R i (hsound2 i hv)
                refine ⟨hstep, ?_, ?_, fun i hv => hsound2 i hv, ?_⟩
                · simp only [entriesOf, hm]
                  exact KbList_tail u d rest hkb
                · simp only [entriesOf, hm]
                  intro e he
                  exact hwfE e (List.mem_cons_of_mem _ he)
                · intro i hv
                  refine ⟨le_min (hmin i hv).1 (hlam i hv), ?_⟩
                  rcases (hmin i hv).2 with heq | ⟨e, he, hpend⟩
                  · left
                    show min (c.tfarReg i) (R.tfar i) = laneMin root r0 i
                    rw [heq]
                    exact min_eq_left (hlam i hv)
                  · rcases List.mem_cons.mp he with rfl | he2
                    · left
                      obtain ⟨u2, hu2, p, hp, hw, hpmin, hdle⟩ := hpend
                      have hx : NRef.tree u = NRef.tree u2 := hu2
                      injection hx with hx2
                      rw [← hx2] at hp
                      have hdle2 : d i ≤ primT p i := hdle
                      by_cases hact : decide (d i < c.tfarReg i) = true
                      · have hRi : R.tfar i =
                            windowMin (r0.tnear i) (c.ray.tfar i) (primsOf u) i := by
                          have hw1 : wfT c.ray.org c.rdir u = true := by
                            rw [hB.1, hB.2.2.2.2.2.1]
                            exact hwfu.1
                          have ht1 : c.tnearReg i = c.ray.tnear i := by
                            rw [congrFun hB.2.2.2.2.2.2.1 i, if_pos hv,
                              congrFun hB.2.2.2.1 i]
                          have hfl := foldLanes_lane_complete
                            (fun j => decide (d j < c.tfarReg j)) c.tnearReg c.rdir u i
                            hact (List.finRange 4) (List.mem_finRange i)
                            (List.nodup_finRange 4) c.ray hw1 ht1
                          rw [← hR, foldSingle_eq_foldLanes, hfl, ht1,
                            congrFun hB.2.2.2.1 i]
                        show min (c.tfarReg i) (R.tfar i) = laneMin root r0 i
                        by_cases hplt : primT p i < c.ray.tfar i
                        · have h1 : R.tfar i ≤ primT p i := by
                            rw [hRi]
                            exact windowMin_le_mem (r0.tnear i) (primsOf u) i p hp
                              hw.1 _ hplt
                          have h2 : R.tfar i = laneMin root r0 i :=
                            le_antisymm (h1.trans (le_of_eq hpmin)) (hlam i hv)
                          rw [h2]
                          exact min_eq_right (hmin i hv).1
                        · have h3 : c.tfarReg i = laneMin root r0 i := by
                            refine le_antisymm ?_ (hmin i hv).1
                            rw [hB.2.2.2.2.2.2.2.2.1 i hv]
                            exact (le_of_not_lt hplt).trans (le_of_eq hpmin)
                          rw [h3]
                          exact min_eq_left (hlam i hv)
                      · have hnlt : ¬ (d i < c.tfarReg i) := by simpa using hact
                        have h3 : c.tfarReg i = laneMin root r0 i :=
                          le_antisymm
                            ((le_of_not_lt hnlt).trans (hdle2.trans (le_of_eq hpmin)))
                            (hmin i hv).1
                        show min (c.tfarReg i) (R.tfar i) = laneMin root r0 i
                        rw [h3]
                        exact min_eq_left (hlam i hv)
                    · refine Or.inr ⟨e, ?_, hpend⟩
                      simp only [entriesOf, hm]
                      exact he2
              next hnswitch =>
                cases hcont
                rw [if_neg hncull, if_neg hnswitch] at hstep
                simp only [stepConfig] at hstep
                refine ⟨hstep, ?_, ?_, fun i hv => hsound i hv, ?_⟩
                · simp only [entriesOf]
                  exact hkb
                · simp only [entriesOf]
                  exact hwfE
                · intro i hv
                  refine ⟨(hmin i hv).1, ?_⟩
                  rcases (hmin i hv).2 with heq | ⟨e, he, hpend⟩
                  · exact Or.inl heq
                  · refine Or.inr ⟨e, ?_, hpend⟩
                    simp only [entriesOf]
                    exact he
          · simp only [pstep, hm, hs] at hfin
            split at hfin
            · exact StepRes.noConfusion hfin
            · split at hfin
              · exact StepRes.noConfusion hfin
              · exact StepRes.noConfusion hfin

theorem pstep_comp_leaf (thr : Nat) (valid : Fin 4 → Bool) (root : BVH4Tree) (r0 : Ray4)
    (c : PConfig) (hc : CompInv valid root r0 c) (prims : List Prim) (curD : Dist4)
    (hm : c.mode = PMode.down (NRef.tree (BVH4Tree.leaf prims)) curD) :
    (∀ c2, pstep thr c = .cont c2 → CompInv valid root r0 c2) ∧
    (∀ c2, pstep thr c = .fin c2 → FinalMin valid root r0 c2) := by
  obtain ⟨hB, hkb, hwfE, hsound, hmin⟩ := hc
  have hstep := pstep_base thr valid r0 c hB
  simp only [entriesOf, hm] at hkb hwfE hmin
  have hwfhead := hwfE (NRef.tree (BVH4Tree.leaf prims), curD) (List.mem_cons_self _ _)
  have hsub : ∀ p, p ∈ prims → p ∈ primsOf root := by
    rcases hwfhead with h | ⟨u2, hu2, h1, h2⟩
    · exact absurd h (fun hh => NRef.noConfusion hh)
    · have hx : NRef.tree (BVH4Tree.leaf prims) = NRef.tree u2 := hu2
      injection hx with hx2
      intro p hp
      refine h2 p ?_
      rw [← hx2, primsOf]
      exact hp
  refine ⟨fun c2 hcont => ?_, fun c2 hfin => ?_⟩
  · simp only [pstep, hm] at hcont hstep
    cases hcont
    simp only [stepConfig] at hstep
    obtain ⟨R, hR⟩ : ∃ R, primIntersect (fun j => decide (curD j < c.tfarReg j))
        c.ray prims = R := ⟨_, rfl⟩
    rw [hR] at hstep ⊢
    have hsound2 : ∀ i, valid i = true → SoundLane r0 (primsOf root) R i := by
      intro i hv
      rw [← hR]
      exact primIntersect_sound r0 (primsOf root) (fun j => decide (curD j < c.tfarReg j))
        prims hsub i c.ray (congrFun hB.2.2.2.1 i) (hsound i hv)
    have hlam : ∀ i, valid i = true → laneMin root r0 i ≤ R.tfar i :=
      fun i hv => laneMin_le_of_sound root r0 R i (hsound2 i hv)
    refine ⟨hstep, ?_, ?_, fun i hv => hsound2 i hv, ?_⟩
    · simp only [entriesOf]
      exact KbList_tail (BVH4Tree.leaf prims) curD c.stack hkb
    · simp only [entriesOf]
      intro e he
      exact hwfE e (List.mem_cons_of_mem _ he)
    · intro i hv
      have hRle2 : R.tfar i ≤ c.ray.tfar i := hR ▸ primIntersect_tfar_le _ prims i c.ray
      constructor
      · show laneMin root r0 i ≤
          if decide (curD i < c.tfarReg i) = true then R.tfar i else c.tfarReg i
        split_ifs with hvl
        · exact hlam i hv
        · exact (hmin i hv).1
      · rcases (hmin i hv).2 with heq | ⟨e, he, hpend⟩
        · left
          show (if decide (curD i < c.tfarReg i) = true then R.tfar i else c.tfarReg i) =
            laneMin root r0 i
          split_ifs with hvl
          · refine le_antisymm ?_ (hlam i hv)
            calc R.tfar i ≤ c.ray.tfar i := hRle2
            _ = c.tfarReg i := (hB.2.2.2.2.2.2.2.2.1 i hv).symm
            _ = laneMin root r0 i := heq
          · exact heq
        · rcases List.mem_cons.mp he with rfl | he2
          · left
            obtain ⟨u2, hu2, p, hp, hw, hpmin, hdle⟩ := hpend
            have hx : NRef.tree (BVH4Tree.leaf prims) = NRef.tree u2 := hu2
            injection hx with hx2
            have hp2 : p ∈ prims := by
              rw [← hx2, primsOf] at hp
              exact hp
            have hdle2 : curD i ≤ primT p i := hdle
            show (if decide (curD i < c.tfarReg i) = true then R.tfar i else c.tfarReg i) =
              laneMin root r0 i
            split_ifs with hvl
            · have hRi : R.tfar i = windowMin (r0.tnear i) (c.ray.tfar i) prims i := by
                rw [← hR, primIntersect_tfar (fun j => decide (curD j < c.tfarReg j))
                  prims i hvl c.ray, congrFun hB.2.2.2.1 i]
              by_cases hplt : primT p i < c.ray.tfar i
              · refine le_antisymm ?_ (hlam i hv)
                rw [hRi]
                exact (windowMin_le_mem (r0.tnear i) prims i p hp2 hw.1 _ hplt).trans
                  (le_of_eq hpmin)
              · refine le_antisymm ?_ (hlam i hv)
                calc R.tfar i ≤ c.ray.tfar i := hRle2
                _ ≤ primT p i := le_of_not_lt hplt
                _ = laneMin root r0 i := hpmin
            · have hnlt : ¬ (curD i < c.tfarReg i) := by simpa using hvl
              exact le_antisymm
                ((le_of_not_lt hnlt).trans (hdle2.trans (le_of_eq hpmin)))
                (hmin i hv).1
          · refine Or.inr ⟨e, ?_, hpend⟩
            simp only [entriesOf]
            exact he2
  · simp only [pstep, hm] at hfin
    exact StepRes.noConfusion hfin

theorem pstep_comp_node (thr : Nat) (valid : Fin 4 → Bool) (root : BVH4Tree) (r0 : Ray4)
    (c : PConfig) (hc : CompInv valid root r0 c) (ch : List (AABB × BVH4Tree)) (curD : Dist4)
    (hm : c.mode = PMode.down (NRef.tree (BVH4Tree.node ch)) curD) :
    (∀ c2, pstep thr c = .cont c2 → CompInv valid root r0 c2) ∧
    (∀ c2, pstep thr c = .fin c2 → FinalMin valid root r0 c2) := by
  obtain ⟨hB, hkb, hwfE, hsound, hmin⟩ := hc
  have hstep := pstep_base thr valid r0 c hB
  simp only [entriesOf, hm] at hkb hwfE hmin
  have hwfhead := hwfE (NRef.tree (BVH4Tree.node ch), curD) (List.mem_cons_self _ _)
  have hnode : wfT r0.org (fun i => rcpSafeVec (r0.dir i)) (BVH4Tree.node ch) = true ∧
      ∀ p, p ∈ primsOf (BVH4Tree.node ch) → p ∈ primsOf root := by
    rcases hwfhead with h | ⟨u2, hu2, h1, h2⟩
    · exact absurd h (fun hh => NRef.noConfusion hh)
    · have hx : NRef.tree (BVH4Tree.node ch) = NRef.tree u2 := hu2
      injection hx with hx2
      rw [← hx2] at h1 h2
      exact ⟨h1, h2⟩
  have hwl : wfL r0.org (fun i => rcpSafeVec (r0.dir i)) ch = true := by
    have h := hnode.1
    rw [wfT] at h
    exact h
  have hch : ∀ cc, cc ∈ ch → wfT r0.org (fun i => rcpSafeVec (r0.dir i)) cc.2 = true ∧
      ∀ p, p ∈ primsOf cc.2 → p ∈ primsOf root := by
    intro cc hcc
    obtain ⟨box2, sub2⟩ := cc
    obtain ⟨hbb, hwt⟩ := wfL_spec r0.org _ ch hwl box2 sub2 hcc
    refine ⟨hwt, fun p hp => hnode.2 p ?_⟩
    rw [primsOf]
    exact primsOf_sub_of_mem box2 sub2 ch hcc p hp
  have hwfstk : ∀ e, e ∈ c.stack → EntryWf root r0.org (fun i => rcpSafeVec (r0.dir i)) e :=
    fun e he => hwfE e (List.mem_cons_of_mem _ he)
  have hkbt : KbList c.stack := KbList_tail (BVH4Tree.node ch) curD c.stack hkb
  obtain ⟨bs0, hbs0, hfree0⟩ := hkbt
  have hspec : KbAcc ⟨(specPop c.stack).1.1, (specPop c.stack).1.2, (specPop c.stack).2⟩ ∧
      (∀ e, e ∈ (specPop c.stack).2 →
        EntryWf root r0.org (fun i => rcpSafeVec (r0.dir i)) e) ∧
      EntryWf root r0.org (fun i => rcpSafeVec (r0.dir i))
        ((specPop c.stack).1.1, (specPop c.stack).1.2) ∧
      (∀ e, e ∈ c.stack →
        accMem e ⟨(specPop c.stack).1.1, (specPop c.stack).1.2, (specPop c.stack).2⟩) := by
    cases bs0 with
    | nil =>
        simp only [List.nil_append] at hbs0
        rw [hbs0]
        simp only [specPop]
        refine ⟨Or.inr ⟨rfl, rfl, rfl⟩, ?_, Or.inl rfl, ?_⟩
        · intro e he
          cases he
        · intro e he
          rcases List.mem_cons.mp he with rfl | he2
          · exact Or.inl rfl
          · cases he2
    | cons b bs1 =>
        rw [List.cons_append] at hbs0
        rw [hbs0]
        simp only [specPop]
        have hbfree : b.1 ≠ NRef.invalid := hfree0 b (List.mem_cons_self _ _)
        refine ⟨Or.inl ⟨hbfree, bs1, rfl,
            fun e he => hfree0 e (List.mem_cons_of_mem _ he)⟩, ?_, ?_, ?_⟩
        · intro e he
          refine hwfstk e ?_
          rw [hbs0]
          exact List.mem_cons_of_mem b he
        · refine hwfstk b ?_
          rw [hbs0]
          exact List.mem_cons_self _ _
        · intro e he
          rcases List.mem_cons.mp he with rfl | he2
          · exact Or.inl rfl
          · exact Or.inr he2
  obtain ⟨hKb0, hwfS0, hwfC0, haccM⟩ := hspec
  obtain ⟨AC, hAC⟩ : ∃ AC, processChildren c.ray.org c.rdir c.tnearReg c.tfarReg ch
      ⟨(specPop c.stack).1.1, (specPop c.stack).1.2, (specPop c.stack).2⟩ = AC := ⟨_, rfl⟩
  have hKbA : KbAcc AC :=
    hAC ▸ processChildren_kb c.ray.org c.rdir c.tnearReg c.tfarReg ch _ hKb0
  have hwfA := hAC ▸ processChildren_wf root r0.org (fun i => rcpSafeVec (r0.dir i))
    c.ray.org c.rdir c.tnearReg c.tfarReg ch _ hch hwfS0 hwfC0
  have haccMA : ∀ e, e ∈ c.stack → accMem e AC :=
    fun e he => hAC ▸ processChildren_accMem c.ray.org c.rdir c.tnearReg c.tfarReg ch _
      e (haccM e he)
  have hcommon : KbList ((AC.cur, AC.curDist) :: AC.stack) ∧
      (∀ e, e ∈ (AC.cur, AC.curDist) :: AC.stack →
        EntryWf root r0.org (fun i => rcpSafeVec (r0.dir i)) e) ∧
      (∀ i, valid i = true →
        laneMin root r0 i ≤ c.tfarReg i ∧
        (c.tfarReg i = laneMin root r0 i ∨
          ∃ e, e ∈ (AC.cur, AC.curDist) :: AC.stack ∧ PendingE root r0 i e)) := by
    refine ⟨KbAcc_entries AC hKbA, ?_, ?_⟩
    · intro e he
      rcases List.mem_cons.mp he with rfl | he2
      · exact hwfA.2
      · exact hwfA.1 e he2
    · intro i hv
      refine ⟨(hmin i hv).1, ?_⟩
      rcases (hmin i hv).2 with heq | ⟨e, he, hpend⟩
      · exact Or.inl heq
      · rcases List.mem_cons.mp he with rfl | he2
        · right
          obtain ⟨u2, hu2, p, hp, hw, hpmin, hdle⟩ := hpend
          have hx : NRef.tree (BVH4Tree.node ch) = NRef.tree u2 := hu2
          injection hx with hx2
          rw [← hx2, primsOf] at hp
          obtain ⟨cc, hcc, hpc⟩ := mem_primsOfL p ch hp
          obtain ⟨box2, sub2⟩ := cc
          cases ht : p.t i with
          | none =>
              exfalso
              rw [primT, ht] at hw
              exact not_top_lt hw.2
          | some t =>
              obtain ⟨hbb, -⟩ := wfL_spec r0.org _ ch hwl box2 sub2 hcc
              obtain ⟨hn, hf⟩ := boxBounds_spec r0.org _ box2 sub2 hbb p hpc i t ht
              have hq1 : c.tnearReg i ≤ XRat.q t := by
                rw [congrFun hB.2.2.2.2.2.2.1 i, if_pos hv]
                have hw1 := hw.1
                rw [primT, ht] at hw1
                exact hw1
              have hq2 : XRat.q t ≤ c.tfarReg i := by
                have hle : primT p i ≤ c.tfarReg i :=
                  (le_of_eq hpmin).trans (hmin i hv).1
                rw [primT, ht] at hle
                exact hle
              have hhit : slabHit (c.tnearReg i) (c.tfarReg i)
                  (slabNearQ (c.ray.org i) (c.rdir i) box2)
                  (slabFarQ (c.ray.org i) (c.rdir i) box2) = true := by
                rw [hB.1, hB.2.2.2.2.2.1]
                exact slabHit_of_window_le (r0.org i) (rcpSafeVec (r0.dir i)) box2 t
                  (c.tnearReg i) (c.tfarReg i) hn hf hq1 hq2
              obtain ⟨D, hD, hDm⟩ := processChildren_pending c.ray.org c.rdir
                c.tnearReg c.tfarReg i ch
                ⟨(specPop c.stack).1.1, (specPop c.stack).1.2, (specPop c.stack).2⟩
                box2 sub2 hcc hhit
              rw [hAC] at hDm
              refine ⟨(NRef.tree sub2, D), ?_, sub2, rfl, p, hpc, hw, hpmin, ?_⟩
              · rcases hDm with h | h
                · rw [h]
                  exact List.mem_cons_self _ _
                · exact List.mem_cons_of_mem _ h
              · show D i ≤ primT p i
                rw [hD, primT, ht, hB.1, hB.2.2.2.2.2.1]
                exact XRat.q_le_q.mpr hn
        · right
          rcases haccMA e he2 with h | h
          · refine ⟨e, ?_, hpend⟩
            rw [h]
            exact List.mem_cons_self _ _
          · exact ⟨e, List.mem_cons_of_mem _ h, hpend⟩
  refine ⟨fun c2 hcont => ?_, fun c2 hfin => ?_⟩
  · simp only [pstep, hm] at hcont hstep
    rw [hAC] at hcont hstep
    split at hcont
    next hsw =>
      cases hcont
      rw [if_pos hsw] at hstep
      simp only [stepConfig] at hstep
      refine ⟨hstep, ?_, ?_, fun i hv => hsound i hv, ?_⟩
      · simp only [entriesOf]
        exact hcommon.1
      · simp only [entriesOf]
        exact hcommon.2.1
      · intro i hv
        refine ⟨(hcommon.2.2 i hv).1, ?_⟩
        rcases (hcommon.2.2 i hv).2 with heq | ⟨e, he, hp⟩
        · exact Or.inl heq
        · refine Or.inr ⟨e, ?_, hp⟩
          simp only [entriesOf]
          exact he
    next hsw =>
      cases hcont
      rw [if_neg hsw] at hstep
      simp only [stepConfig] at hstep
      refine ⟨hstep, ?_, ?_, fun i hv => hsound i hv, ?_⟩
      · simp only [entriesOf]
        exact hcommon.1
      · simp only [entriesOf]
        exact hcommon.2.1
      · intro i hv
        refine ⟨(hcommon.2.2 i hv).1, ?_⟩
        rcases (hcommon.2.2 i hv).2 with heq | ⟨e, he, hp⟩
        · exact Or.inl heq
        · refine Or.inr ⟨e, ?_, hp⟩
          simp only [entriesOf]
          exact he
  · simp only [pstep, hm] at hfin
    rw [hAC] at hfin
    split at hfin
    · exact StepRes.noConfusion hfin
    · exact StepRes.noConfusion hfin

theorem pstep_comp (thr : Nat) (valid : Fin 4 → Bool) (root : BVH4Tree) (r0 : Ray4)
    (c : PConfig) (hc : CompInv valid root r0 c) :
    (∀ c2, pstep thr c = .cont c2 → CompInv valid root r0 c2) ∧
    (∀ c2, pstep thr c = .fin c2 → FinalMin valid root r0 c2) := by
  cases hm : c.mode with
  | pop => exact pstep_comp_pop thr valid root r0 c hc hm
  | down cur curD =>
      cases cur with
      | invalid =>
          obtain ⟨hB, hkb, hwfE, hsound, hmin⟩ := hc
          simp only [entriesOf, hm] at hkb hwfE hmin
          have hrest : c.stack = [] := KbList_invalid_head curD c.stack hkb
          refine ⟨fun c2 hcont => ?_, fun c2 hfin => ?_⟩
          · simp only [pstep, hm] at hcont
            exact StepRes.noConfusion hcont
          · simp only [pstep, hm] at hfin
            cases hfin
            refine ⟨hB, fun i hv => hsound i hv, fun i hv => ?_⟩
            rcases (hmin i hv).2 with heq | ⟨e, he, hpend⟩
            · exact heq
            · exfalso
              rcases List.mem_cons.mp he with rfl | he2
              · obtain ⟨u, hu, -⟩ := hpend
                exact NRef.noConfusion hu
              · rw [hrest] at he2
                cases he2
      | tree t =>
          cases t with
          | leaf prims => exact pstep_comp_leaf thr valid root r0 c hc prims curD hm
          | node ch => exact pstep_comp_node thr valid root r0 c hc ch curD hm

theorem prun_comp (thr : Nat) (valid : Fin 4 → Bool) (root : BVH4Tree) (r0 : Ray4) :
    ∀ (fuel : Nat) (c : PConfig), CompInv valid root r0 c →
      ∀ c2, prun thr fuel c = some c2 → FinalMin valid root r0 c2 := by
  intro fuel
  induction fuel with
  | zero => intro c _ c2 h; cases h
  | succ fuel ih =>
      intro c hc c2 hrun
      rw [prun] at hrun
      cases hp : pstep thr c with
      | fin cf =>
          rw [hp] at hrun
          have hfinal := (pstep_comp thr valid root r0 c hc).2 cf hp
          cases hrun
          exact hfinal
      | cont cc =>
          rw [hp] at hrun
          exact ih cc ((pstep_comp thr valid root r0 c hc).1 cc hp) c2 hrun

theorem mkIntersectConfig_comp (valid : Fin 4 → Bool) (root : BVH4Tree) (r0 : Ray4)
    (hwf : wfT r0.org (fun i => rcpSafeVec (r0.dir i)) root = true) :
    CompInv valid root r0 (mkIntersectConfig valid root r0) := by
  refine ⟨mkIntersectConfig_base valid root r0, ?_, ?_, ?_, ?_⟩
  · exact ⟨[(NRef.tree root, fun i => if valid i then r0.tnear i else ⊤)], rfl,
      fun e he => by
        rcases List.mem_cons.mp he with rfl | he2
        · exact fun h => NRef.noConfusion h
        · cases he2⟩
  · intro e he
    simp only [entriesOf, mkIntersectConfig] at he
    rcases List.mem_cons.mp he with rfl | he2
    · exact Or.inr ⟨root, rfl, hwf, fun p hp => hp⟩
    · rcases List.mem_cons.mp he2 with rfl | he3
      · exact Or.inl rfl
      · cases he3
  · intro i hv
    exact ⟨le_refl _, Or.inl ⟨rfl, rfl⟩⟩
  · intro i hv
    constructor
    · show laneMin root r0 i ≤ (if valid i then r0.tfar i else ⊥)
      rw [if_pos hv]
      exact windowMin_le_init _ _ _ _
    · rcases windowMin_cases (r0.tnear i) (primsOf root) i (r0.tfar i) with h0 | ⟨p, hp, h1, h2, h3⟩
      · left
        show (if valid i then r0.tfar i else ⊥) = laneMin root r0 i
        rw [if_pos hv, laneMin, h0]
      · right
        refine ⟨(NRef.tree root, fun j => if valid j then r0.tnear j else ⊤),
          List.mem_cons_self _ _, root, rfl, p, hp, ⟨h1, h2⟩, h3.symm, ?_⟩
        show (if valid i then r0.tnear i else ⊤) ≤ primT p i
        rw [if_pos hv]
        exact h1

theorem hybridIntersect_final (thr fuel : Nat) (valid : Fin 4 → Bool) (root : BVH4Tree)
    (r0 : Ray4) (hwf : wfT r0.org (fun i => rcpSafeVec (r0.dir i)) root = true)
    (c2 : PConfig) (h : hybridIntersect thr fuel valid root r0 = some c2) :
    ∀ i, valid i = true →
      c2.ray.tfar i = laneMin root r0 i ∧ SoundLane r0 (primsOf root) c2.ray i := by
  intro i hv
  obtain ⟨hB, hS, hM⟩ := prun_comp thr valid root r0 fuel _
    (mkIntersectConfig_comp valid root r0 hwf) c2 h
  refine ⟨?_, hS i hv⟩
  rw [← hB.2.2.2.2.2.2.2.2.1 i hv]
  exact hM i hv

theorem pstep_tfar_mono (thr : Nat) (c : PConfig) (i : Fin 4) :
    (stepConfig (pstep thr c)).ray.tfar i ≤ c.ray.tfar i := by
  cases hm : c.mode with
  | pop =>
      cases hs : c.stack with
      | nil =>
          simp only [pstep, hm, hs, stepConfig]
          exact le_refl _
      | cons e rest =>
          obtain ⟨n, d⟩ := e
          cases n with
          | invalid =>
              simp only [pstep, hm, hs, stepConfig]
              exact le_refl _
          | tree u =>
              simp only [pstep, hm, hs]
              split
              · simp only [stepConfig]
                exact le_refl _
              · split
                · simp only [stepConfig]
                  rw [foldSingle_eq_foldLanes]
                  exact (foldLanes_frame (fun j => decide (d j < c.tfarReg j)) c.tnearReg
                    c.rdir u (List.finRange 4) c.ray).2.2.2.2.2.1 i
                · simp only [stepConfig]
                  exact le_refl _
  | down cur curD =>
      cases cur with
      | invalid =>
          simp only [pstep, hm, stepConfig]
          exact le_refl _
      | tree t =>
          cases t with
          | leaf prims =>
              simp only [pstep, hm, stepConfig]
              exact primIntersect_tfar_le _ prims i c.ray
          | node ch =>
              simp only [pstep, hm]
              split
              · simp only [stepConfig]
                exact le_refl _
              · simp only [stepConfig]
                exact le_refl _

theorem prun_tfar_mono (thr : Nat) :
    ∀ (fuel : Nat) (c : PConfig) (c2 : PConfig), prun thr fuel c = some c2 →
      ∀ i, c2.ray.tfar i ≤ c.ray.tfar i := by
  intro fuel
  induction fuel with
  | zero => intro c c2 h; cases h
  | succ fuel ih =>
      intro c c2 hrun i
      rw [prun] at hrun
      cases hp : pstep thr c with
      | fin cf =>
          rw [hp] at hrun
          have h2 := pstep_tfar_mono thr c i
          rw [hp] at h2
          cases hrun
          exact h2
      | cont cc =>
          rw [hp] at hrun
          have h2 := pstep_tfar_mono thr c i
          rw [hp] at h2
          exact le_trans (ih cc c2 hrun i) h2

theorem XRat.q_max (a b : ℚ) : XRat.q (max a b) = max (XRat.q a) (XRat.q b) := by
  rcases le_total a b with h | h
  · rw [max_eq_right h, max_eq_right (XRat.q_le_q.mpr h)]
  · rw [max_eq_left h, max_eq_left (XRat.q_le_q.mpr h)]

theorem XRat.q_min (a b : ℚ) : XRat.q (min a b) = min (XRat.q a) (XRat.q b) := by
  rcases le_total a b with h | h
  · rw [min_eq_left h, min_eq_left (XRat.q_le_q.mpr h)]
  · rw [min_eq_right h, min_eq_right (XRat.q_le_q.mpr h)]

/-- Modelled from the spec: the claim's slab-test entry bound
`t_near = max(tnear, min(t_min_x, t_max_x), min(t_min_y, t_max_y),
min(t_min_z, t_max_z))`, written over exact plane distances. -/
def claimTNear (tn : XRat) (org rdir : Vec3) (b : AABB) : XRat :=
  max (max (max tn
    (XRat.q (min ((b.lower.x - org.x) * rdir.x) ((b.upper.x - org.x) * rdir.x))))
    (XRat.q (min ((b.lower.y - org.y) * rdir.y) ((b.upper.y - org.y) * rdir.y))))
    (XRat.q (min ((b.lower.z - org.z) * rdir.z) ((b.upper.z - org.z) * rdir.z)))

/-- Modelled from the spec: the claim's slab-test exit bound
`t_far = min(tfar, max(t_min_x, t_max_x), max(t_min_y, t_max_y),
max(t_min_z, t_max_z))`. -/
def claimTFar (tf : XRat) (org rdir : Vec3) (b : AABB) : XRat :=
  min (min (min tf
    (XRat.q (max ((b.lower.x - org.x) * rdir.x) ((b.upper.x - org.x) * rdir.x))))
    (XRat.q (max ((b.lower.y - org.y) * rdir.y) ((b.upper.y - org.y) * rdir.y))))
    (XRat.q (max ((b.lower.z - org.z) * rdir.z) ((b.upper.z - org.z) * rdir.z)))

theorem claimTNear_eq (tn : XRat) (org rdir : Vec3) (b : AABB) :
    claimTNear tn org rdir b = max (XRat.q (slabNearQ org rdir b)) tn := by
  simp only [claimTNear, slabNearQ, XRat.q_max]
  simp [max_assoc, max_comm, max_left_comm]

theorem claimTFar_eq (tf : XRat) (org rdir : Vec3) (b : AABB) :
    claimTFar tf org rdir b = min (XRat.q (slabFarQ org rdir b)) tf := by
  simp only [claimTFar, slabFarQ, XRat.q_min]
  simp [min_assoc, min_comm, min_left_comm]

/-- Witness packed origins: all lanes at the origin. -/
def wOrg4 : Fin 4 → Vec3 := fun _ => ⟨0, 0, 0⟩

/-- Witness packed reciprocal directions: diagonal. -/
def wRdir4 : Fin 4 → Vec3 := fun _ => ⟨1, 1, 1⟩

/-- Witness `ray_tnear` register. -/
def wTn4 : Dist4 := fun _ => XRat.q 0

/-- Witness `ray_tfar` register. -/
def wTf4 : Dist4 := fun _ => XRat.q 100

/-- Witness child: a unit-offset box over an empty leaf. -/
def wBoxPair : AABB × BVH4Tree := (⟨⟨1, 1, 1⟩, ⟨10, 10, 10⟩⟩, BVH4Tree.leaf [])

/-- Witness accumulator: speculatively popped sentinel. -/
def wAcc : DownAcc := ⟨NRef.invalid, fun _ => ⊤, []⟩

/-- Witness `childDist` vector of `wBoxPair` against the witness registers. -/
def wD : Dist4 := fun i =>
  if slabHit (wTn4 i) (wTf4 i) (slabNearQ (wOrg4 i) (wRdir4 i) wBoxPair.1)
      (slabFarQ (wOrg4 i) (wRdir4 i) wBoxPair.1)
  then XRat.q (slabNearQ (wOrg4 i) (wRdir4 i) wBoxPair.1) else ⊤

/-- Witness pop-point configuration of the closest-hit walker. -/
def wC5p : PConfig :=
  { ray := rayW, rdir := fun i => rcpSafeVec (rayW.dir i),
    tnearReg := fun _ => XRat.q 0, tfarReg := fun _ => XRat.q 100,
    stack := [(NRef.tree treeW, fun _ => XRat.q 0), sentE],
    mode := PMode.pop, peak := 2, downSteps := 0 }

/-- Witness pop-point configuration of the any-hit walker. -/
def wC5o : OConfig :=
  { ray := rayW, rdir := fun i => rcpSafeVec (rayW.dir i),
    tnearReg := fun _ => XRat.q 0, tfarReg := fun _ => XRat.q 100,
    valid := validW, terminated := fun i => ! validW i,
    stack := [(NRef.tree treeW, fun _ => XRat.q 0), sentE],
    mode := PMode.pop }

/-- Witness leaf-point configuration of the any-hit walker. -/
def wC6o : OConfig :=
  { ray := rayW, rdir := fun i => rcpSafeVec (rayW.dir i),
    tnearReg := fun _ => XRat.q 0, tfarReg := fun _ => XRat.q 100,
    valid := validW, terminated := fun i => ! validW i,
    stack := [sentE],
    mode := PMode.down (NRef.tree (BVH4Tree.leaf [primW])) (fun _ => XRat.q 0) }

/-- Witness AOS input ray with a negative `tnear`. -/
def wRayNeg : RayAOS :=
  { org := ⟨0, 0, 0⟩, dir := ⟨0, 0, 1⟩, tnear := -3, tfar := 50, mask := 0, instID := 0 }

/-- C1 (amended): with exact arithmetic, the hybrid closest-hit walker returns
the same per-lane `tfar` for any two switch thresholds — in particular
`T_SWITCH = 0` (always packet) and `T_SWITCH = 4` (always single-ray) — on
every valid lane, both runs computing the lane's global closest-hit distance
over the tree's primitives, provided the tree's boxes bound their primitives'
hit distances.  The committed hit attributes may differ between the modes when
two primitives tie at the winning distance, so the claim's "identical per-lane
hit state" holds for `tfar` but not for the hit attributes. -/
theorem C1_tfar_mode_independence (thr1 thr2 fuel1 fuel2 : Nat) (valid : Fin 4 → Bool)
    (root : BVH4Tree) (r0 : Ray4)
    (hwf : wfT r0.org (fun i => rcpSafeVec (r0.dir i)) root = true)
    (h1 : (hybridIntersect thr1 fuel1 valid root r0).isSome = true)
    (h2 : (hybridIntersect thr2 fuel2 valid root r0).isSome = true)
    (i : Fin 4) (hv : valid i = true) :
    ((hybridIntersect thr1 fuel1 valid root r0).get h1).ray.tfar i = laneMin root r0 i ∧
    ((hybridIntersect thr1 fuel1 valid root r0).get h1).ray.tfar i =
      ((hybridIntersect thr2 fuel2 valid root r0).get h2).ray.tfar i := by
  have e1 := hybridIntersect_final thr1 fuel1 valid root r0 hwf _
    (Option.some_get h1).symm i hv
  have e2 := hybridIntersect_final thr2 fuel2 valid root r0 hwf _
    (Option.some_get h2).symm i hv
  exact ⟨e1.1, e1.1.trans e2.1.symm⟩

theorem C1_tfar_mode_independence_witness :
    ((hybridIntersect 0 100 validW treeW rayW).get (by with_unfolding_all rfl)).ray.tfar 0 =
      laneMin treeW rayW 0 ∧
    ((hybridIntersect 0 100 validW treeW rayW).get (by with_unfolding_all rfl)).ray.tfar 0 =
      ((hybridIntersect 4 100 validW treeW rayW).get (by with_unfolding_all rfl)).ray.tfar 0 :=
  C1_tfar_mode_independence 0 4 100 100 validW treeW rayW (by with_unfolding_all rfl)
    (by with_unfolding_all rfl) (by with_unfolding_all rfl) 0 (by decide)

/-- C1 counterexample: a two-lane packet over two primitives tied at distance 5.
The packet walk (`T_SWITCH = 0`) visits box B first because lane 1 finds it
nearer, so lane 0 commits payload 2; the always-single walk (`T_SWITCH = 4`)
visits box A first and lane 0 commits payload 1.  Both modes agree on
`tfar = 5`, refuting the claimed identity of the full per-lane hit state while
exhibiting the tfar agreement. -/
theorem C1_attr_divergence :
    (hybridIntersect 0 100 validC1 treeC1 rayC1).map (fun c => c.ray.attr 0) =
      some (some 2) ∧
    (hybridIntersect 4 100 validC1 treeC1 rayC1).map (fun c => c.ray.attr 0) =
      some (some 1) ∧
    (hybridIntersect 0 100 validC1 treeC1 rayC1).map (fun c => c.ray.tfar 0) =
      some (XRat.q 5) ∧
    (hybridIntersect 4 100 validC1 treeC1 rayC1).map (fun c => c.ray.tfar 0) =
      some (XRat.q 5) ∧
    ¬ ((some 2 : Option Nat) = some 1) := by
  refine ⟨?_, ?_, ?_, ?_, by decide⟩ <;> with_unfolding_all rfl

/-- C2: contrary to the spec's "empty tree is not an error", the GPU stream
intersector tests `root == BVH::emptyNode` on entry and calls `exit(0)`,
terminating the process for every input stream instead of returning with the
rays untouched.  The hybrid packet walker, by contrast, returns from an
empty-node root with the packet's hit fields unchanged. -/
theorem C2_empty_root_exits (rays : List RayAOS) :
    gpuStreamIntersect BVH4Tree.emptyNode rays = CallOutcome.exitedProcess 0 ∧
    (hybridIntersect 0 10 validW BVH4Tree.emptyNode rayW).map
      (fun c => (c.ray.tfar 0, c.ray.attr 0)) = some (rayW.tfar 0, rayW.attr 0) := by
  exact ⟨rfl, by with_unfolding_all rfl⟩

/-- C3 (amended): the static slab test's hit bit equals the claim's formula
`t_near ≤ t_far` with both clamps, and the motion-blur `intersectBox` returns
the clamped near distance `max(lnearP, tnear)`; but the per-lane distance the
static path feeds into `childDist` for ordering and culling is the unclamped
slab entry `lnearP` itself, not the claimed `t_near = max(tnear, …)`. -/
theorem C3_slab_test (tn tf : XRat) (org rdir : Vec3) (b : AABB)
    (ray : Ray4) (rayTfar : Fin 4 → XRat) (rdirF : Fin 4 → Vec3) (mb : AABBMB) (i : Fin 4) :
    (slabHit tn tf (slabNearQ org rdir b) (slabFarQ org rdir b) =
      decide (claimTNear tn org rdir b ≤ claimTFar tf org rdir b)) ∧
    ((intersectBoxMB ray rayTfar rdirF mb i).2 =
      max (XRat.q (slabNearQ (ray.org i) (rdirF i) (mbBoxAt mb (ray.time i))))
        (ray.tnear i)) ∧
    (∀ (org4 rdir4 : Fin 4 → Vec3) (tnearReg tfarReg : Dist4) (acc : DownAcc)
      (c : AABB × BVH4Tree),
      slabHit (tnearReg i) (tfarReg i) (slabNearQ (org4 i) (rdir4 i) c.1)
        (slabFarQ (org4 i) (rdir4 i) c.1) = true →
      ∃ D : Dist4, D i = XRat.q (slabNearQ (org4 i) (rdir4 i) c.1) ∧
        accMem (NRef.tree c.2, D) (childStep org4 rdir4 tnearReg tfarReg acc c)) := by
  refine ⟨?_, rfl, ?_⟩
  · rw [claimTNear_eq, claimTFar_eq, slabHit]
  · intro org4 rdir4 tnearReg tfarReg acc c hhit
    exact childStep_hit_mem org4 rdir4 tnearReg tfarReg acc c i hhit

/-- C3 counterexample: a ray with `tnear = 5` against a box entered at
distance 1.  The slab test passes and the static path stores `childDist = 1`,
while the claim's `t_near = max(tnear, …)` equals 5. -/
theorem C3_childdist_unclamped :
    slabHit (XRat.q 5) (XRat.q 100)
      (slabNearQ ⟨0, 0, 0⟩ ⟨1, 1, 1⟩ ⟨⟨1, 1, 1⟩, ⟨10, 10, 10⟩⟩)
      (slabFarQ ⟨0, 0, 0⟩ ⟨1, 1, 1⟩ ⟨⟨1, 1, 1⟩, ⟨10, 10, 10⟩⟩) = true ∧
    (childStep (fun _ => ⟨0, 0, 0⟩) (fun _ => ⟨1, 1, 1⟩) (fun _ => XRat.q 5)
      (fun _ => XRat.q 100) ⟨NRef.invalid, fun _ => ⊤, []⟩
      (⟨⟨1, 1, 1⟩, ⟨10, 10, 10⟩⟩, BVH4Tree.leaf [])).curDist 0 = XRat.q 1 ∧
    claimTNear (XRat.q 5) ⟨0, 0, 0⟩ ⟨1, 1, 1⟩ ⟨⟨1, 1, 1⟩, ⟨10, 10, 10⟩⟩ = XRat.q 5 ∧
    ¬ (XRat.q 1 = XRat.q 5) := by
  refine ⟨?_, ?_, ?_, by decide⟩ <;> with_unfolding_all rfl

/-- C4: during packet down-traversal a hit child with
`childDist = select(hit, lnearP, +inf)` is swapped into the register — the
incumbent being pushed — exactly when some lane finds it strictly nearer than
the incumbent; otherwise the child is pushed, and in particular an all-lane tie
keeps the incumbent in register. -/
theorem C4_child_ordering (org rdir : Fin 4 → Vec3) (tnearReg tfarReg : Dist4)
    (acc : DownAcc) (c : AABB × BVH4Tree) (D : Dist4)
    (hD : D = fun i => if slabHit (tnearReg i) (tfarReg i)
      (slabNearQ (org i) (rdir i) c.1) (slabFarQ (org i) (rdir i) c.1)
      then XRat.q (slabNearQ (org i) (rdir i) c.1) else ⊤)
    (hhit : anyLane (fun i => slabHit (tnearReg i) (tfarReg i)
      (slabNearQ (org i) (rdir i) c.1) (slabFarQ (org i) (rdir i) c.1)) = true) :
    (anyLane (fun i => decide (D i < acc.curDist i)) = true →
      childStep org rdir tnearReg tfarReg acc c =
        ⟨NRef.tree c.2, D, (acc.cur, acc.curDist) :: acc.stack⟩) ∧
    (anyLane (fun i => decide (D i < acc.curDist i)) = false →
      childStep org rdir tnearReg tfarReg acc c =
        ⟨acc.cur, acc.curDist, (NRef.tree c.2, D) :: acc.stack⟩) ∧
    ((∀ i, D i = acc.curDist i) →
      childStep org rdir tnearReg tfarReg acc c =
        ⟨acc.cur, acc.curDist, (NRef.tree c.2, D) :: acc.stack⟩) := by
  have hDi : ∀ j, (if slabHit (tnearReg j) (tfarReg j) (slabNearQ (org j) (rdir j) c.1)
      (slabFarQ (org j) (rdir j) c.1) then XRat.q (slabNearQ (org j) (rdir j) c.1)
      else ⊤) = D j := fun j => by rw [hD]
  refine ⟨fun hlt => ?_, fun hnlt => ?_, fun htie => ?_⟩
  · simp only [childStep, hDi, ← hD]
    rw [if_pos hhit, if_pos hlt]
  · simp only [childStep, hDi, ← hD]
    rw [if_pos hhit, if_neg (by simp [hnlt])]
  · have hfalse : anyLane (fun i => decide (D i < acc.curDist i)) = false := by
      refine (anyLane_eq_false_iff _).mpr fun i => ?_
      rw [htie i]
      exact decide_eq_false (lt_irrefl _)
    simp only [childStep, hDi, ← hD]
    rw [if_pos hhit, if_neg (by simp [hfalse])]

theorem C4_child_ordering_witness :
    (anyLane (fun i => decide (wD i < wAcc.curDist i)) = true →
      childStep wOrg4 wRdir4 wTn4 wTf4 wAcc wBoxPair =
        ⟨NRef.tree wBoxPair.2, wD, (wAcc.cur, wAcc.curDist) :: wAcc.stack⟩) ∧
    (anyLane (fun i => decide (wD i < wAcc.curDist i)) = false →
      childStep wOrg4 wRdir4 wTn4 wTf4 wAcc wBoxPair =
        ⟨wAcc.cur, wAcc.curDist, (NRef.tree wBoxPair.2, wD) :: wAcc.stack⟩) ∧
    ((∀ i, wD i = wAcc.curDist i) →
      childStep wOrg4 wRdir4 wTn4 wTf4 wAcc wBoxPair =
        ⟨wAcc.cur, wAcc.curDist, (NRef.tree wBoxPair.2, wD) :: wAcc.stack⟩) :=
  C4_child_ordering wOrg4 wRdir4 wTn4 wTf4 wAcc wBoxPair wD rfl
    (by with_unfolding_all rfl)

/-- C5: after popping `(curNode, curDist)` the active lanes are exactly those
with `curDist < ray_tfar`.  With no lane active the entry is discarded and the
walk returns to the pop point; with a positive popcount at most the switch
threshold the single-ray walker runs once per active lane (ascending lane
order) and the closest-hit path folds `ray_tfar = min(ray_tfar, ray.tfar)`
while the any-hit path ORs the per-lane results into the termination mask and
forces `ray_tfar = -inf` on newly terminated lanes; otherwise the walker
enters down-traversal on the popped node. -/
theorem C5_post_pop_switch (thr : Nat) (c : PConfig) (oc : OConfig) (u : BVH4Tree)
    (d : Dist4) (rest orest : List StackE) (hm : c.mode = PMode.pop)
    (hs : c.stack = (NRef.tree u, d) :: rest)
    (hom : oc.mode = PMode.pop) (hos : oc.stack = (NRef.tree u, d) :: orest) :
    (anyLane (fun i => decide (d i < c.tfarReg i)) = false →
      pstep thr c = .cont { c with stack := rest }) ∧
    (anyLane (fun i => decide (d i < c.tfarReg i)) = true →
      popcountLanes (fun i => decide (d i < c.tfarReg i)) ≤ thr →
      pstep thr c = .cont { c with
        ray := foldSingle (fun i => decide (d i < c.tfarReg i)) c.tnearReg c.rdir u c.ray,
        tfarReg := fun i => min (c.tfarReg i)
          ((foldSingle (fun i => decide (d i < c.tfarReg i))
            c.tnearReg c.rdir u c.ray).tfar i),
        stack := rest }) ∧
    (anyLane (fun i => decide (d i < c.tfarReg i)) = true →
      ¬ popcountLanes (fun i => decide (d i < c.tfarReg i)) ≤ thr →
      pstep thr c = .cont { c with stack := rest, mode := PMode.down (NRef.tree u) d }) ∧
    (anyLane (fun i => decide (d i < oc.tfarReg i)) = true →
      popcountLanes (fun i => decide (d i < oc.tfarReg i)) ≤ thr →
      allLanes (fun i => oc.terminated i || (decide (d i < oc.tfarReg i) &&
        walkOcc1 i (oc.tnearReg i) (oc.rdir i) u oc.ray)) = false →
      ostep thr oc = .cont { oc with
        terminated := fun i => oc.terminated i || (decide (d i < oc.tfarReg i) &&
          walkOcc1 i (oc.tnearReg i) (oc.rdir i) u oc.ray),
        tfarReg := fun i => if oc.terminated i || (decide (d i < oc.tfarReg i) &&
            walkOcc1 i (oc.tnearReg i) (oc.rdir i) u oc.ray) then ⊥ else oc.tfarReg i,
        stack := orest }) := by
  refine ⟨fun hcull => ?_, fun hany hsw => ?_, fun hany hnsw => ?_, fun hany hsw hnall => ?_⟩
  · simp only [pstep, hm, hs]
    rw [if_pos hcull]
  · simp only [pstep, hm, hs]
    rw [if_neg (by simp [hany]), if_pos hsw]
  · simp only [pstep, hm, hs]
    rw [if_neg (by simp [hany]), if_neg hnsw]
  · simp only [ostep, hom, hos]
    rw [if_neg (by simp [hany]), if_pos hsw, if_neg (by simp [hnall])]

theorem C5_post_pop_switch_witness :
    (anyLane (fun i => decide ((fun _ => XRat.q 0) i < wC5p.tfarReg i)) = false →
      pstep 3 wC5p = .cont { wC5p with stack := [sentE] }) ∧
    (anyLane (fun i => decide ((fun _ => XRat.q 0) i < wC5p.tfarReg i)) = true →
      popcountLanes (fun i => decide ((fun _ => XRat.q 0) i < wC5p.tfarReg i)) ≤ 3 →
      pstep 3 wC5p = .cont { wC5p with
        ray := foldSingle (fun i => decide ((fun _ => XRat.q 0) i < wC5p.tfarReg i))
          wC5p.tnearReg wC5p.rdir treeW wC5p.ray,
        tfarReg := fun i => min (wC5p.tfarReg i)
          ((foldSingle (fun i => decide ((fun _ => XRat.q 0) i < wC5p.tfarReg i))
            wC5p.tnearReg wC5p.rdir treeW wC5p.ray).tfar i),
        stack := [sentE] }) ∧
    (anyLane (fun i => decide ((fun _ => XRat.q 0) i < wC5p.tfarReg i)) = true →
      ¬ popcountLanes (fun i => decide ((fun _ => XRat.q 0) i < wC5p.tfarReg i)) ≤ 3 →
      pstep 3 wC5p = .cont { wC5p with
        stack := [sentE],
        mode := PMode.down (NRef.tree treeW) (fun _ => XRat.q 0) }) ∧
    (anyLane (fun i => decide ((fun _ => XRat.q 0) i < wC5o.tfarReg i)) = true →
      popcountLanes (fun i => decide ((fun _ => XRat.q 0) i < wC5o.tfarReg i)) ≤ 3 →
      allLanes (fun i => wC5o.terminated i || (decide ((fun _ => XRat.q 0) i < wC5o.tfarReg i) &&
        walkOcc1 i (wC5o.tnearReg i) (wC5o.rdir i) treeW wC5o.ray)) = false →
      ostep 3 wC5o = .cont { wC5o with
        terminated := fun i => wC5o.terminated i ||
          (decide ((fun _ => XRat.q 0) i < wC5o.tfarReg i) &&
            walkOcc1 i (wC5o.tnearReg i) (wC5o.rdir i) treeW wC5o.ray),
        tfarReg := fun i => if wC5o.terminated i ||
            (decide ((fun _ => XRat.q 0) i < wC5o.tfarReg i) &&
              walkOcc1 i (wC5o.tnearReg i) (wC5o.rdir i) treeW wC5o.ray) then ⊥
          else wC5o.tfarReg i,
        stack := [sentE] }) :=
  C5_post_pop_switch 3 wC5p wC5o treeW (fun _ => XRat.q 0) [sentE] [sentE] rfl rfl rfl rfl

/-- C6: the any-hit walker starts with `terminated = !valid`; at a leaf it
OR-folds the mask the any-hit primitive intersector reports for the lanes not
yet terminated into `terminated`, forces `ray_tfar = -inf` on terminated lanes
— a window that fails every slab test — returns as soon as every lane is
terminated, and every return performs the masked store writing 0 into the
hit-indicator field of exactly the lanes in `valid & terminated`. -/
theorem C6_occluded_termination (valid : Fin 4 → Bool) (root : BVH4Tree) (r0 : Ray4)
    (thr : Nat) (oc : OConfig) (prims : List Prim) (curD : Dist4)
    (hm : oc.mode = PMode.down (NRef.tree (BVH4Tree.leaf prims)) curD) :
    ((mkOccludedConfig valid root r0).terminated = fun i => ! valid i) ∧
    (∀ i, (ostore oc).ray.geomID i =
      if oc.valid i && oc.terminated i then 0 else oc.ray.geomID i) ∧
    (∀ (tn : XRat) (near far : ℚ), slabHit tn ⊥ near far = false) ∧
    (allLanes (fun i => oc.terminated i ||
        primOccluded (fun j => ! oc.terminated j) oc.ray prims i) = true →
      ostep thr oc = .fin (ostore { oc with
        terminated := fun i => oc.terminated i ||
          primOccluded (fun j => ! oc.terminated j) oc.ray prims i,
        mode := PMode.pop })) ∧
    (allLanes (fun i => oc.terminated i ||
        primOccluded (fun j => ! oc.terminated j) oc.ray prims i) = false →
      ostep thr oc = .cont { oc with
        terminated := fun i => oc.terminated i ||
          primOccluded (fun j => ! oc.terminated j) oc.ray prims i,
        tfarReg := fun i => if oc.terminated i ||
            primOccluded (fun j => ! oc.terminated j) oc.ray prims i then ⊥
          else oc.tfarReg i,
        mode := PMode.pop }) := by
  refine ⟨rfl, fun i => rfl, ?_, fun hall => ?_, fun hnall => ?_⟩
  · intro tn near far
    rw [slabHit]
    refine decide_eq_false fun hc => ?_
    rw [min_eq_right bot_le] at hc
    have h1 : XRat.q near ≤ (⊥ : XRat) := le_trans (le_max_left _ _) hc
    exact WithBot.coe_ne_bot (le_bot_iff.mp h1)
  · simp only [ostep, hm]
    rw [if_pos hall]
  · simp only [ostep, hm]
    rw [if_neg (by simp [hnall])]

theorem C6_occluded_termination_witness :
    ((mkOccludedConfig validW treeW rayW).terminated = fun i => ! validW i) ∧
    (∀ i, (ostore wC6o).ray.geomID i =
      if wC6o.valid i && wC6o.terminated i then 0 else wC6o.ray.geomID i) ∧
    (∀ (tn : XRat) (near far : ℚ), slabHit tn ⊥ near far = false) ∧
    (allLanes (fun i => wC6o.terminated i ||
        primOccluded (fun j => ! wC6o.terminated j) wC6o.ray [primW] i) = true →
      ostep 3 wC6o = .fin (ostore { wC6o with
        terminated := fun i => wC6o.terminated i ||
          primOccluded (fun j => ! wC6o.terminated j) wC6o.ray [primW] i,
        mode := PMode.pop })) ∧
    (allLanes (fun i => wC6o.terminated i ||
        primOccluded (fun j => ! wC6o.terminated j) wC6o.ray [primW] i) = false →
      ostep 3 wC6o = .cont { wC6o with
        terminated := fun i => wC6o.terminated i ||
          primOccluded (fun j => ! wC6o.terminated j) wC6o.ray [primW] i,
        tfarReg := fun i => if wC6o.terminated i ||
            primOccluded (fun j => ! wC6o.terminated j) wC6o.ray [primW] i then ⊥
          else wC6o.tfarReg i,
        mode := PMode.pop }) :=
  C6_occluded_termination validW treeW rayW 3 wC6o [primW] (fun _ => XRat.q 0) rfl

/-- C7: the per-lane cull bound `ray_tfar` never increases at any step of the
closest-hit walker — leaf commits and single-ray folds included — so the final
`tfar` of every lane is at most its value at entry; stated over the
primitive-intersector contract, which only lowers `tfar` on lanes it updates. -/
theorem C7_tfar_monotone (thr fuel : Nat) (valid : Fin 4 → Bool) (root : BVH4Tree)
    (r0 : Ray4) (i : Fin 4)
    (h : (hybridIntersect thr fuel valid root r0).isSome = true) :
    (∀ c : PConfig, (stepConfig (pstep thr c)).ray.tfar i ≤ c.ray.tfar i) ∧
    ((hybridIntersect thr fuel valid root r0).get h).ray.tfar i ≤ r0.tfar i := by
  refine ⟨fun c => pstep_tfar_mono thr c i, ?_⟩
  exact prun_tfar_mono thr fuel (mkIntersectConfig valid root r0)
    ((hybridIntersect thr fuel valid root r0).get h) (Option.some_get h).symm i

theorem C7_tfar_monotone_witness :
    (∀ c : PConfig, (stepConfig (pstep 0 c)).ray.tfar 0 ≤ c.ray.tfar 0) ∧
    ((hybridIntersect 0 100 validW treeW rayW).get
      (by with_unfolding_all rfl)).ray.tfar 0 ≤ rayW.tfar 0 :=
  C7_tfar_monotone 0 100 validW treeW rayW 0 (by with_unfolding_all rfl)

/-- Frame facts of one any-hit step: a continuing step leaves the ray packet
and the input valid mask untouched and only grows the terminated mask; a
returning step performs the masked store, which changes nothing but `geomID`
and leaves even `geomID` unchanged on lanes whose valid bit is clear. -/
theorem ostep_frame (thr : Nat) (c : OConfig) (i : Fin 4) :
    (∀ c2, ostep thr c = OStepRes.cont c2 → c2.ray = c.ray ∧ c2.valid = c.valid ∧
      (c.terminated i = true → c2.terminated i = true)) ∧
    (∀ c2, ostep thr c = OStepRes.fin c2 → c2.valid = c.valid ∧
      c2.ray.org = c.ray.org ∧ c2.ray.dir = c.ray.dir ∧ c2.ray.time = c.ray.time ∧
      c2.ray.tnear = c.ray.tnear ∧ c2.ray.tfar = c.ray.tfar ∧
      c2.ray.attr = c.ray.attr ∧
      (c.terminated i = true → c2.terminated i = true) ∧
      (c.valid i = false → c2.ray.geomID i = c.ray.geomID i)) := by
  have hfinX : ∀ X : OConfig, X.valid = c.valid →
      (c.terminated i = true → X.terminated i = true) → X.ray = c.ray →
      ((ostore X).valid = c.valid ∧
       (ostore X).ray.org = c.ray.org ∧ (ostore X).ray.dir = c.ray.dir ∧
       (ostore X).ray.time = c.ray.time ∧ (ostore X).ray.tnear = c.ray.tnear ∧
       (ostore X).ray.tfar = c.ray.tfar ∧ (ostore X).ray.attr = c.ray.attr ∧
       (c.terminated i = true → (ostore X).terminated i = true) ∧
       (c.valid i = false → (ostore X).ray.geomID i = c.ray.geomID i)) := by
    intro X hXv hXt hXr
    refine ⟨?_, ?_, ?_, ?_, ?_, ?_, ?_, ?_, fun hvi => ?_⟩
    · show X.valid = c.valid
      exact hXv
    · show X.ray.org = c.ray.org
      rw [hXr]
    · show X.ray.dir = c.ray.dir
      rw [hXr]
    · show X.ray.time = c.ray.time
      rw [hXr]
    · show X.ray.tnear = c.ray.tnear
      rw [hXr]
    · show X.ray.tfar = c.ray.tfar
      rw [hXr]
    · show X.ray.attr = c.ray.attr
      rw [hXr]
    · intro h
      show X.terminated i = true
      exact hXt h
    · show (if X.valid i && X.terminated i then 0 else X.ray.geomID i) = c.ray.geomID i
      rw [hXv, hvi, hXr]
      rfl
  constructor
  · intro c2 hcont
    cases hm : c.mode with
    | pop =>
        cases hs : c.stack with
        | nil =>
            simp only [ostep, hm, hs] at hcont
            exact OStepRes.noConfusion hcont
        | cons e rest =>
            obtain ⟨n, d⟩ := e
            cases n with
            | invalid =>
                simp only [ostep, hm, hs] at hcont
                exact OStepRes.noConfusion hcont
            | tree u =>
                simp only [ostep, hm, hs] at hcont
                split at hcont
                · cases hcont
                  exact ⟨rfl, rfl, fun h => h⟩
                · split at hcont
                  · split at hcont
                    · exact OStepRes.noConfusion hcont
                    · cases hcont
                      refine ⟨rfl, rfl, fun h => ?_⟩
                      show (c.terminated i || _) = true
                      rw [h]
                      rfl
                  · cases hcont
                    exact ⟨rfl, rfl, fun h => h⟩
    | down cur curD =>
        cases cur with
        | invalid =>
            simp only [ostep, hm] at hcont
            exact OStepRes.noConfusion hcont
        | tree t =>
            cases t with
            | leaf prims =>
                simp only [ostep, hm] at hcont
                split at hcont
                · exact OStepRes.noConfusion hcont
                · cases hcont
                  refine ⟨rfl, rfl, fun h => ?_⟩
                  show (c.terminated i || _) = true
                  rw [h]
                  rfl
            | node ch =>
                simp only [ostep, hm] at hcont
                split at hcont
                · cases hcont
                  exact ⟨rfl, rfl, fun h => h⟩
                · cases hcont
                  exact ⟨rfl, rfl, fun h => h⟩
  · intro c2 hfin
    cases hm : c.mode with
    | pop =>
        cases hs : c.stack with
        | nil =>
            simp only [ostep, hm, hs] at hfin
            cases hfin
            exact hfinX c rfl (fun h => h) rfl
        | cons e rest =>
            obtain ⟨n, d⟩ := e
            cases n with
            | invalid =>
                simp only [ostep, hm, hs] at hfin
                cases hfin
                exact hfinX { c with stack := rest } rfl (fun h => h) rfl
            | tree u =>
                simp only [ostep, hm, hs] at hfin
                split at hfin
                · exact OStepRes.noConfusion hfin
                · split at hfin
                  · split at hfin
                    · cases hfin
                      refine hfinX _ rfl (fun h => ?_) rfl
                      show (c.terminated i || _) = true
                      rw [h]
                      rfl
                    · exact OStepRes.noConfusion hfin
                  · exact OStepRes.noConfusion hfin
    | down cur curD =>
        cases cur with
        | invalid =>
            simp only [ostep, hm] at hfin
            cases hfin
            exact hfinX c rfl (fun h => h) rfl
        | tree t =>
            cases t with
            | leaf prims =>
                simp only [ostep, hm] at hfin
                split at hfin
                · cases hfin
                  refine hfinX _ rfl (fun h => ?_) rfl
                  show (c.terminated i || _) = true
                  rw [h]
                  rfl
                · exact OStepRes.noConfusion hfin
            | node ch =>
                simp only [ostep, hm] at hfin
                split at hfin
                · exact OStepRes.noConfusion hfin
                · exact OStepRes.noConfusion hfin

/-- Frame of a full any-hit run: the returned configuration keeps the input
valid mask, every ray field except `geomID`, the already-terminated lanes, and
the `geomID` of every lane whose valid bit is clear. -/
theorem orun_frame (thr : Nat) (i : Fin 4) :
    ∀ (fuel : Nat) (c c2 : OConfig), orun thr fuel c = some c2 →
      c2.valid = c.valid ∧ c2.ray.org = c.ray.org ∧ c2.ray.dir = c.ray.dir ∧
      c2.ray.time = c.ray.time ∧ c2.ray.tnear = c.ray.tnear ∧
      c2.ray.tfar = c.ray.tfar ∧ c2.ray.attr = c.ray.attr ∧
      (c.terminated i = true → c2.terminated i = true) ∧
      (c.valid i = false → c2.ray.geomID i = c.ray.geomID i) := by
  intro fuel
  induction fuel with
  | zero => intro c c2 h; cases h
  | succ fuel ih =>
      intro c c2 hrun
      rw [orun] at hrun
      cases hp : ostep thr c with
      | fin cf =>
          rw [hp] at hrun
          have hf := (ostep_frame thr c i).2 cf hp
          cases hrun
          exact hf
      | cont cc =>
          rw [hp] at hrun
          obtain ⟨hray, hvalid, hterm⟩ := (ostep_frame thr c i).1 cc hp
          obtain ⟨g1, g2, g3, g4, g5, g6, g7, g8, g9⟩ := ih cc c2 hrun
          refine ⟨by rw [g1, hvalid], by rw [g2, hray], by rw [g3, hray],
            by rw [g4, hray], by rw [g5, hray], by rw [g6, hray], by rw [g7, hray],
            fun h => g8 (hterm h), fun h => ?_⟩
          rw [g9 (by rw [hvalid]; exact h), hray]

/-- C8: a lane whose valid bit is clear at entry has its working window forced
to `tnear = +inf`, `tfar = -inf` by both drivers — a window that fails every
slab test — and the any-hit driver additionally starts the lane terminated, a
state every step preserves, so the leaf masks the any-hit primitive
intersector returns for the not-yet-terminated lanes always exclude it; when
intersect or occluded returns, the lane's `tfar`, hit attributes and
hit-indicator `geomID`, and the packet's other ray fields, are exactly as they
were at entry. -/
theorem C8_inactive_lane_frame (valid : Fin 4 → Bool) (root : BVH4Tree) (r0 : Ray4)
    (i : Fin 4) (hv : valid i = false) :
    (mkIntersectConfig valid root r0).tnearReg i = ⊤ ∧
    (mkIntersectConfig valid root r0).tfarReg i = ⊥ ∧
    (∀ near far : ℚ, slabHit ((mkIntersectConfig valid root r0).tnearReg i)
      ((mkIntersectConfig valid root r0).tfarReg i) near far = false) ∧
    (∀ thr fuel c2, hybridIntersect thr fuel valid root r0 = some c2 →
      c2.ray.tfar i = r0.tfar i ∧ c2.ray.attr i = r0.attr i ∧
      c2.ray.org = r0.org ∧ c2.ray.dir = r0.dir ∧ c2.ray.tnear = r0.tnear ∧
      c2.ray.geomID = r0.geomID) ∧
    (mkOccludedConfig valid root r0).tnearReg i = ⊤ ∧
    (mkOccludedConfig valid root r0).tfarReg i = ⊥ ∧
    (mkOccludedConfig valid root r0).terminated i = true ∧
    (∀ near far : ℚ, slabHit ((mkOccludedConfig valid root r0).tnearReg i)
      ((mkOccludedConfig valid root r0).tfarReg i) near far = false) ∧
    (∀ (v : Fin 4 → Bool) (r : Ray4) (prims : List Prim), v i = false →
      primOccluded v r prims i = false) ∧
    (∀ thr fuel c2, hybridOccluded thr fuel valid root r0 = some c2 →
      c2.terminated i = true ∧ c2.ray.tfar i = r0.tfar i ∧
      c2.ray.attr i = r0.attr i ∧ c2.ray.geomID i = r0.geomID i ∧
      c2.ray.org = r0.org ∧ c2.ray.dir = r0.dir ∧ c2.ray.tnear = r0.tnear) := by
  have h1 : (mkIntersectConfig valid root r0).tnearReg i = ⊤ := by
    show (if valid i then r0.tnear i else ⊤) = ⊤
    rw [hv]
    rfl
  have h2 : (mkIntersectConfig valid root r0).tfarReg i = ⊥ := by
    show (if valid i then r0.tfar i else ⊥) = ⊥
    rw [hv]
    rfl
  have h5 : (mkOccludedConfig valid root r0).tnearReg i = ⊤ := by
    show (if valid i then r0.tnear i else ⊤) = ⊤
    rw [hv]
    rfl
  have h6 : (mkOccludedConfig valid root r0).tfarReg i = ⊥ := by
    show (if valid i then r0.tfar i else ⊥) = ⊥
    rw [hv]
    rfl
  have h7 : (mkOccludedConfig valid root r0).terminated i = true := by
    show (! valid i) = true
    rw [hv]
    rfl
  refine ⟨h1, h2, ?_, ?_, h5, h6, h7, ?_, ?_, ?_⟩
  · intro near far
    rw [h1, h2, slabHit]
    refine decide_eq_false fun hc => ?_
    rw [min_eq_right bot_le, max_eq_right le_top] at hc
    exact absurd (le_bot_iff.mp hc).symm bot_ne_top
  · intro thr fuel c2 hrun
    obtain ⟨b1, b2, b3, b4, b5, b6, b7, b8, b9, b10⟩ :=
      prun_base thr valid r0 fuel _ (mkIntersectConfig_base valid root r0) c2 hrun
    obtain ⟨e1, e2, e3⟩ := b10 i hv
    exact ⟨e2, e3, b1, b2, b4, b5⟩
  · intro near far
    rw [h5, h6, slabHit]
    refine decide_eq_false fun hc => ?_
    rw [min_eq_right bot_le, max_eq_right le_top] at hc
    exact absurd (le_bot_iff.mp hc).symm bot_ne_top
  · intro v r prims hvi
    show (v i && _) = false
    rw [hvi]
    rfl
  · intro thr fuel c2 hrun
    obtain ⟨g1, g2, g3, g4, g5, g6, g7, g8, g9⟩ :=
      orun_frame thr i fuel (mkOccludedConfig valid root r0) c2 hrun
    exact ⟨g8 h7, congrFun g6 i, congrFun g7 i, g9 hv, g2, g3, g5⟩

theorem C8_inactive_lane_frame_witness :
    (mkIntersectConfig validW treeW rayW).tnearReg 1 = ⊤ ∧
    (mkIntersectConfig validW treeW rayW).tfarReg 1 = ⊥ ∧
    (∀ near far : ℚ, slabHit ((mkIntersectConfig validW treeW rayW).tnearReg 1)
      ((mkIntersectConfig validW treeW rayW).tfarReg 1) near far = false) ∧
    (∀ thr fuel c2, hybridIntersect thr fuel validW treeW rayW = some c2 →
      c2.ray.tfar 1 = rayW.tfar 1 ∧ c2.ray.attr 1 = rayW.attr 1 ∧
      c2.ray.org = rayW.org ∧ c2.ray.dir = rayW.dir ∧ c2.ray.tnear = rayW.tnear ∧
      c2.ray.geomID = rayW.geomID) ∧
    (mkOccludedConfig validW treeW rayW).tnearReg 1 = ⊤ ∧
    (mkOccludedConfig validW treeW rayW).tfarReg 1 = ⊥ ∧
    (mkOccludedConfig validW treeW rayW).terminated 1 = true ∧
    (∀ near far : ℚ, slabHit ((mkOccludedConfig validW treeW rayW).tnearReg 1)
      ((mkOccludedConfig validW treeW rayW).tfarReg 1) near far = false) ∧
    (∀ (v : Fin 4 → Bool) (r : Ray4) (prims : List Prim), v 1 = false →
      primOccluded v r prims 1 = false) ∧
    (∀ thr fuel c2, hybridOccluded thr fuel validW treeW rayW = some c2 →
      c2.terminated 1 = true ∧ c2.ray.tfar 1 = rayW.tfar 1 ∧
      c2.ray.attr 1 = rayW.attr 1 ∧ c2.ray.geomID 1 = rayW.geomID 1 ∧
      c2.ray.org = rayW.org ∧ c2.ray.dir = rayW.dir ∧ c2.ray.tnear = rayW.tnear) :=
  C8_inactive_lane_frame validW treeW rayW 1 (by decide)

/-- C9 (amended): for a BVH4 whose every internal node has at most four
children, the packet stack (sentinel included) never holds more than
`2 + 4·k` entries after `k` internal-node steps, and the recorded peak
occupancy obeys the same bound when the walker returns.  The spec's static
bound `stackSizeChunk = tree max depth + small margin` is refuted by the
counterexample: peak occupancy is not bounded by any function of the depth
alone with a small margin. -/
theorem C9_stack_bound (thr fuel : Nat) (valid : Fin 4 → Bool) (root : BVH4Tree)
    (r0 : Ray4) (har : arity4T root = true)
    (h : (hybridIntersect thr fuel valid root r0).isSome = true) :
    ((hybridIntersect thr fuel valid root r0).get h).peak ≤
      2 + 4 * ((hybridIntersect thr fuel valid root r0).get h).downSteps ∧
    ((hybridIntersect thr fuel valid root r0).get h).stack.length ≤
      2 + 4 * ((hybridIntersect thr fuel valid root r0).get h).downSteps := by
  have hp := prun_peak thr fuel (mkIntersectConfig valid root r0)
    (mkIntersectConfig_peak valid root r0 har)
    ((hybridIntersect thr fuel valid root r0).get h) (Option.some_get h).symm
  exact ⟨hp.2.2, hp.2.1⟩

theorem C9_stack_bound_witness :
    ((hybridIntersect 0 100 validAll treeC9 rayC9).get
      (by with_unfolding_all rfl)).peak ≤
      2 + 4 * ((hybridIntersect 0 100 validAll treeC9 rayC9).get
        (by with_unfolding_all rfl)).downSteps ∧
    ((hybridIntersect 0 100 validAll treeC9 rayC9).get
      (by with_unfolding_all rfl)).stack.length ≤
      2 + 4 * ((hybridIntersect 0 100 validAll treeC9 rayC9).get
        (by with_unfolding_all rfl)).downSteps :=
  C9_stack_bound 0 100 validAll treeC9 rayC9 (by with_unfolding_all rfl)
    (by with_unfolding_all rfl)

/-- C9 counterexample: on a depth-3, all-hit, arity-4 tree the packet walker's
peak stack occupancy reaches 16 entries, exceeding the spec's
`stackSizeChunk = depth + small margin` capacity (7 with the modelled margin
of 4); a conforming traversal would have pushed past the end of the stack
arrays. -/
theorem C9_peak_exceeds_chunk :
    (hybridIntersect 0 100 validAll treeC9 rayC9).map (fun c => c.peak) = some 16 ∧
    tdepth treeC9 = 3 ∧
    stackSizeChunkModel (tdepth treeC9) = 7 ∧
    ¬ (16 ≤ 7) := by
  refine ⟨?_, ?_, ?_, by decide⟩ <;> with_unfolding_all rfl

/-- C10: `AOStoSOA` fills slot `(packetID, slotID)` from input ray
`packetID*4 + slotID`, replacing `tnear` by `max(0, tnear)` and copying origin,
direction, `tfar`, `mask` and `instID` unchanged — so a ray with a negative
`tnear` is traversed by the stream path as if its `tnear` were 0 — and the
stream single-ray fallback applies the same clamp `ray_near = max(tnear, 0)`. -/
theorem C10_aostosoa_tnear_clamp (rays : List RayAOS) (packetID slotID : Nat) (a : RayAOS)
    (h : rays.get? (packetID * 4 + slotID) = some a) :
    AOStoSOA rays packetID slotID =
      { org := a.org, dir := a.dir, tnear := max 0 a.tnear, tfar := XRat.q a.tfar,
        mask := a.mask, instID := a.instID } ∧
    (a.tnear < 0 → (AOStoSOA rays packetID slotID).tnear = 0) ∧
    (0 ≤ a.tnear → (AOStoSOA rays packetID slotID).tnear = a.tnear) ∧
    stream1RayNear a.tnear = max a.tnear 0 := by
  have hA : AOStoSOA rays packetID slotID =
      { org := a.org, dir := a.dir, tnear := max 0 a.tnear, tfar := XRat.q a.tfar,
        mask := a.mask, instID := a.instID } := by
    rw [AOStoSOA, h]
  refine ⟨hA, ?_, ?_, rfl⟩
  · intro hneg
    rw [hA]
    exact max_eq_left (le_of_lt hneg)
  · intro hpos
    rw [hA]
    exact max_eq_right hpos

theorem C10_aostosoa_tnear_clamp_witness :
    AOStoSOA [wRayNeg] 0 0 =
      { org := wRayNeg.org, dir := wRayNeg.dir, tnear := max 0 wRayNeg.tnear,
        tfar := XRat.q wRayNeg.tfar, mask := wRayNeg.mask, instID := wRayNeg.instID } ∧
    (wRayNeg.tnear < 0 → (AOStoSOA [wRayNeg] 0 0).tnear = 0) ∧
    (0 ≤ wRayNeg.tnear → (AOStoSOA [wRayNeg] 0 0).tnear = wRayNeg.tnear) ∧
    stream1RayNear wRayNeg.tnear = max wRayNeg.tnear 0 :=
  C10_aostosoa_tnear_clamp [wRayNeg] 0 0 wRayNeg rfl
